import Mathlib

/-!
The leaf region allocator and the message-log pump.

A shallow embedding of `src/lib/region.c`, `src/lib/network.c` (`write_buf`) and
`src/messagelog/messagelog.c` (`lillydump_dercursor`, `pump_lilly`, the set-up of
`dump_lilly_packets`), and the properties proved of them.

Conventions.
* An `int` has 32 bits: conversions to `int` and sums, differences and increments
  of `int` reduce modulo `2^32` (`to_int`). A `size_t` has 64 bits (LP64):
  conversions to it and its sums reduce modulo `2^64` (`to_size_t`, `SIZE_MOD`).
* `malloc` succeeds and returns a fresh block; an address is a block and an offset
  into it (`Ptr`), and distinct blocks share no byte.
* The world outside is given by the values its calls return: `write` in
  `write_buf`, `open`, `write` and `lillyput_dercursor` in `lillydump_dercursor`,
  `lillyget_event` and `lillyput_event` in `pump_lilly`. What the code does to it
  is recorded as a list of calls.
* A loop that can run for ever takes a bound `fuel` on its iterations; the result
  `none` stands for a call that has not returned within that bound.
* Diagnostic output (`perror`, `fprintf`) is left out.
-/

namespace Leaf

/-! ## C integers -/

/-- The largest `int` (32 bits). -/
def INT_MAX : Int := 2147483647

/-- The smallest `int`. -/
def INT_MIN : Int := -2147483648

/-- Conversion of an integer value to `int`: reduction modulo `2^32` into
`INT_MIN .. INT_MAX`. -/
def to_int (x : Int) : Int := (x + 2147483648) % 4294967296 - 2147483648

/-- Conversion of an integer value to `size_t` (64 bits): reduction modulo `2^64`
into `0 .. 2^64 - 1`. -/
def to_size_t (x : Int) : Int := x % 18446744073709551616

/-- A byte of memory. -/
abbrev Byte := UInt8

/-! ## src/lib/network.c -/

/-- One call `write(destfd, buf + w, r - w)` made by `write_buf`: the
descriptor, the address `buf + w`, the count requested and the value stored
into `w_d`. -/
structure WriteCall where
  fd : Int
  buf : Int
  count : Int
  ret : Int
deriving DecidableEq, Repr

/-- The `while (w < r)` loop of `write_buf`, run for at most `fuel` iterations
from the `k`-th call of `write` on; `wr k c` is the value that the `k`-th call
of `write` leaves in the `int` `w_d` when it is asked for `c` bytes. The count
`r - w` is computed in `int` and converted to the `size_t` that `write` takes.
The result is the value `write_buf` returns, `none` when the loop is still
running after `fuel` iterations, and the calls of `write` made, in order.
Diagnostic output (`perror`, the progress lines of `verbose`) is left out. -/
def write_buf_loop (wr : Nat → Int → Int) (destfd buf r : Int) :
    Nat → Nat → Int → Option Int × List WriteCall
  | 0, _, w => if w < r then (none, []) else (some 0, [])
  | fuel + 1, k, w =>
    if w < r then
      let count := to_size_t (to_int (r - w))
      let w_d := wr k count
      let call : WriteCall := { fd := destfd, buf := buf + w, count := count, ret := w_d }
      if w_d < 0 then
        (some (-1), [call])
      else
        let (res, calls) := write_buf_loop wr destfd buf r fuel (k + 1) (to_int (w + w_d))
        (res, call :: calls)
    else
      (some 0, [])

/-- The function `write_buf` of network.c. -/
def write_buf (wr : Nat → Int → Int) (fuel : Nat) (destfd buf r : Int) (_verbose : Int) :
    Option Int × List WriteCall :=
  write_buf_loop wr destfd buf r fuel 0 0

/-- The bytes one call of `write` transferred: the first `ret` bytes at the
address it was given, none when the call failed. -/
def WriteCall.bytes (mem : Int → Byte) (c : WriteCall) : List Byte :=
  (List.range c.ret.toNat).map (fun (i : Nat) => mem (c.buf + (i : Int)))

/-- The bytes a sequence of `write` calls transferred, in call order. -/
def transferred (mem : Int → Byte) (calls : List WriteCall) : List Byte :=
  (calls.map (WriteCall.bytes mem)).flatten

/-- The bytes `buf[0..n)` of memory. -/
def buffer (mem : Int → Byte) (buf : Int) (n : Nat) : List Byte :=
  (List.range n).map (fun (i : Nat) => mem (buf + (i : Int)))

/-! ## printf -/

/-- Decimal digits of a natural number, most significant first; `fuel` bounds
the number of digits. -/
def decimal_aux : Nat → Nat → List Char → List Char
  | 0, _, acc => acc
  | fuel + 1, n, acc =>
    if n < 10 then Nat.digitChar n :: acc
    else decimal_aux fuel (n / 10) (Nat.digitChar (n % 10) :: acc)

/-- Decimal representation of a natural number. -/
def decimal (n : Nat) : List Char := decimal_aux (n + 1) n []

/-- The conversion `%d` (`width = 0`) or `%0<width>d` of printf. -/
def fmt_d (width : Nat) (v : Int) : List Char :=
  let digits := decimal v.natAbs
  if v < 0 then
    '-' :: (List.replicate (width - 1 - digits.length) '0' ++ digits)
  else
    List.replicate (width - digits.length) '0' ++ digits

/-- The output of printf for a format made of literal characters, `%d` and
`%0<w>d` with a one-digit width `w`, on `int` arguments. -/
def printf_format : List Char → List Int → List Char
  | '%' :: '0' :: w :: 'd' :: fmt, a :: args =>
    fmt_d (w.toNat - '0'.toNat) a ++ printf_format fmt args
  | '%' :: 'd' :: fmt, a :: args => fmt_d 0 a ++ printf_format fmt args
  | c :: fmt, args => c :: printf_format fmt args
  | [], _ => []

/-- The string `snprintf(str, size, format, ...)` leaves in `str`: the output cut
to `size - 1` characters. -/
def snprintf (size : Nat) (format : String) (args : List Int) : List Char :=
  (printf_format format.toList args).take (size - 1)

/-! ## src/messagelog/messagelog.c -/

/-- The value of `EAGAIN` (Linux). -/
def EAGAIN : Int := 11

/-- The fields of `struct LillyConnection` that messagelog.c reads (the
structure is declared in lillydap/api.h, outside the repository). -/
structure LillyConnection where
  get_fd : Int
  put_fd : Int
deriving DecidableEq, Repr

/-- The type `LDAPX` of messagelog.c: a connection and a pointer to the serial
number, here the address of an `int` cell. -/
structure LDAPX where
  ldap : LillyConnection
  serial : Nat
deriving DecidableEq, Repr

/-- A `dercursor` (declared by quick-der, outside the repository): the address
of the first byte and the length, a `size_t`. -/
structure dercursor where
  derptr : Int
  derlen : Nat
deriving DecidableEq, Repr

/-- What `lillydump_dercursor` does to the world outside, in order. -/
inductive Event where
  | open_ (path : List Char) (fd : Int)
  | write (call : WriteCall)
  | close (fd : Int)
  | lillyput_dercursor (lil : LDAPX) (qpool : Nat) (dermsg : dercursor) (ret : Int)
deriving DecidableEq, Repr

/-- The world outside: what `open`, `write` and `lillyput_dercursor` return,
each as a function of everything done so far. -/
structure Env where
  open_ : List Event → List Char → Int
  write : List Event → Nat → Int → Int
  lillyput_dercursor : List Event → LDAPX → Nat → dercursor → Int

/-- The state a call of `lillydump_dercursor` works on: the `int` cells in
memory and the events so far. -/
structure World where
  ints : Nat → Int
  trace : List Event

/-- Assignment to one `int` cell. -/
def store (ints : Nat → Int) (addr : Nat) (v : Int) : Nat → Int :=
  fun a => if a = addr then v else ints a

/-- The function `lillydump_dercursor` of messagelog.c. The value returned is
`none` when `write_buf` is still looping after `fuel` iterations. -/
def lillydump_dercursor (env : Env) (fuel : Nat) (w : World) (lil : LDAPX) (qpool : Nat)
    (dermsg : dercursor) : Option Int × World :=
  let ldap := lil
  let serial := w.ints ldap.serial
  let serialfile := snprintf 64 "msg.%06d.%d.bin" [serial, lil.ldap.get_fd]
  let ints1 := store w.ints ldap.serial (to_int (serial + 1))
  let serialfd := env.open_ w.trace serialfile
  let trace1 := w.trace ++ [Event.open_ serialfile serialfd]
  if serialfd < 0 then
    (some (-1), { ints := ints1, trace := trace1 })
  else
    let (rc, calls) :=
      write_buf (env.write trace1) fuel serialfd dermsg.derptr (to_int dermsg.derlen) 0
    let trace2 := trace1 ++ calls.map Event.write
    match rc with
    | none => (none, { ints := ints1, trace := trace2 })
    | some rc =>
      if rc < 0 then
        (some (-1), { ints := ints1, trace := trace2 ++ [Event.close serialfd] })
      else
        let trace3 := trace2 ++ [Event.close serialfd]
        let ret := env.lillyput_dercursor trace3 lil qpool dermsg
        (some ret, { ints := ints1,
                     trace := trace3 ++ [Event.lillyput_dercursor lil qpool dermsg ret] })

/-- The `while` loops of `pump_lilly`: call `event` until it returns a value
that is not positive; `event k` is the value the `k`-th call returns and the
value of `errno` after it. The result is the last value returned, `errno` after
it and the number of calls made, or `none` when the loop is still running after
`fuel` calls. -/
def event_loop (event : Nat → Int × Int) : Nat → Nat → Option (Int × Int × Nat)
  | 0, _ => none
  | fuel + 1, k =>
    if (event k).1 > 0 then event_loop event fuel (k + 1)
    else some ((event k).1, (event k).2, k + 1)

/-- The function `pump_lilly` of messagelog.c, with `lillyget_event` and
`lillyput_event` given by the values they return call after call. -/
def pump_lilly (lillyget_event lillyput_event : Nat → Int × Int) (fuel : Nat) : Option Int :=
  match event_loop lillyget_event fuel 0 with
  | none => none
  | some (r, errno, _) =>
    if r < 0 ∧ errno ≠ EAGAIN then some r
    else
      let zero_reads : Int := if 0 = r then 1 else 0
      match event_loop lillyput_event fuel 0 with
      | none => none
      | some (r, errno, _) =>
        if r < 0 ∧ errno ≠ EAGAIN then some r
        else if r ≤ 0 ∧ zero_reads ≠ 0 then some (-1)
        else some 0

/-- The set-up of `dump_lilly_packets`: the two connections, server to client
and client to server, both pointing at the local `serial`, which starts at 0. -/
def dump_lilly_packets_init (server_fd client_fd : Int) (serial_addr : Nat) (w : World) :
    LDAPX × LDAPX × World :=
  let ldap_server : LDAPX :=
    { ldap := { get_fd := server_fd, put_fd := client_fd }, serial := serial_addr }
  let ldap_client : LDAPX :=
    { ldap := { get_fd := client_fd, put_fd := server_fd }, serial := serial_addr }
  (ldap_server, ldap_client, { w with ints := store w.ints serial_addr 0 })

/-- One message handed to `lillydump_dercursor` during a session: the side it
came from (`true` for the server), the pool and the message. -/
structure Capture where
  from_server : Bool
  qpool : Nat
  dermsg : dercursor
deriving DecidableEq, Repr

/-- The calls of `lillydump_dercursor` of one session, in capture order, on the
two connections; a call that never returns ends the run. The result is the
world after the run and the number of calls made. -/
def captures (env : Env) (fuel : Nat) (ldap_server ldap_client : LDAPX) :
    World → List Capture → World × Nat
  | w, [] => (w, 0)
  | w, c :: rest =>
    match lillydump_dercursor env fuel w (if c.from_server then ldap_server else ldap_client)
        c.qpool c.dermsg with
    | (none, w1) => (w1, 1)
    | (some _, w1) =>
      let (w2, n) := captures env fuel ldap_server ldap_client w1 rest
      (w2, n + 1)

/-- One session of `dump_lilly_packets`: the set-up, then the calls of
`lillydump_dercursor` that the two connections make, in capture order. -/
def session (env : Env) (fuel : Nat) (server_fd client_fd : Int) (serial_addr : Nat)
    (w : World) (caps : List Capture) : World × Nat :=
  let (ldap_server, ldap_client, w0) := dump_lilly_packets_init server_fd client_fd serial_addr w
  captures env fuel ldap_server ldap_client w0 caps

/-- The calls of `write` among the events, in order. -/
def written : List Event → List WriteCall
  | [] => []
  | Event.write call :: rest => call :: written rest
  | _ :: rest => written rest

/-- The file names opened, in order. -/
def opened : List Event → List (List Char)
  | [] => []
  | Event.open_ path _ :: rest => path :: opened rest
  | _ :: rest => opened rest

/-- What was forwarded: the arguments of the calls of `lillyput_dercursor`, in
order. -/
def forwarded : List Event → List (LDAPX × Nat × dercursor)
  | [] => []
  | Event.lillyput_dercursor lil qpool dermsg _ :: rest => (lil, qpool, dermsg) :: forwarded rest
  | _ :: rest => forwarded rest

/-- A `write` that makes progress: every call for a positive count fails or
transfers at least one and at most the requested number of bytes. -/
def Env.write_progress (env : Env) : Prop :=
  ∀ (trace : List Event) (k : Nat) (c : Int),
    0 < c → env.write trace k c < 0 ∨ (1 ≤ env.write trace k c ∧ env.write trace k c ≤ c)

/-! ## The capture file name, in the words of the specification -/

/-- A natural number written in decimal, padded with zeros on the left to
`width` digits. -/
def zero_padded (width n : Nat) : List Char :=
  List.replicate (width - (decimal n).length) '0' ++ decimal n

/-- An integer written in decimal. -/
def decimal_int (v : Int) : List Char :=
  if v < 0 then '-' :: decimal v.natAbs else decimal v.natAbs

/-- The name `msg.<serial>.<fd>.bin` with the serial zero-padded to six
digits. -/
def capture_name (serial : Nat) (fd : Int) : List Char :=
  "msg.".toList ++ zero_padded 6 serial ++ ".".toList ++ decimal_int fd ++ ".bin".toList

/-- The names `lillydump_dercursor` computes for the captures of a session when
the first one uses the serial number `i`, the next one `i + 1`, and so on. -/
def serial_names (server_fd client_fd : Int) : Nat → List Capture → List (List Char)
  | _, [] => []
  | i, c :: rest =>
    snprintf 64 "msg.%06d.%d.bin" [(i : Int), if c.from_server then server_fd else client_fd]
      :: serial_names server_fd client_fd (i + 1) rest

/-! ## Sample inputs -/

/-- A world outside in which `open` returns descriptor 7, `write` transfers at
most 8 bytes a call and `lillyput_dercursor` returns 0. -/
def sample_env : Env :=
  { open_ := fun _ _ => 7
    write := fun _ _ c => min c 8
    lillyput_dercursor := fun _ _ _ _ => 0 }

/-- A world outside in which no file can be created. -/
def no_file_env : Env :=
  { open_ := fun _ _ => -1
    write := fun _ _ c => c
    lillyput_dercursor := fun _ _ _ _ => 0 }

/-- A state with nothing done yet and 99 in every `int` cell. -/
def sample_world : World :=
  { ints := fun _ => 99
    trace := [] }

/-- The scenario of the specification: the client sends a message of 10 bytes,
then the server one of 20 bytes. -/
def sample_captures : List Capture :=
  [{ from_server := false, qpool := 1, dermsg := { derptr := 100, derlen := 10 } },
   { from_server := true, qpool := 1, dermsg := { derptr := 200, derlen := 20 } }]

/-- A capture with an empty message from the server. -/
def empty_capture : Capture :=
  { from_server := true, qpool := 0, dermsg := { derptr := 0, derlen := 0 } }

/-! ## src/lib/region.c -/

/-- Number of values of a `size_t` (LP64: 64-bit `size_t` and pointers). -/
def SIZE_MOD : Nat := 2 ^ 64

/-- The constant `CHUNK_SIZE` that region.c defines. -/
def CHUNK_SIZE : Nat := 65536

/-- The value of `sizeof(RegionChunkHeader)`: a pointer and three `size_t` fields. -/
def sizeof_RegionChunkHeader : Nat := 32

/-- The value of `sizeof(RegionChunk)`: the union of the header and a one-byte array. -/
def sizeof_RegionChunk : Nat := 32

/-- A chunk: the block `malloc` returned for it (`addr`) and the header fields;
the `next` field is the tail of the list the chunk stands in. -/
structure RegionChunk where
  addr : Nat
  size : Nat
  used : Nat
  unused : Nat
deriving DecidableEq, Repr

/-- The two chains of a pool, head first. -/
structure Pool where
  chunks : List RegionChunk
  jumbo : List RegionChunk
deriving DecidableEq, Repr

/-- The state of `malloc`: how many blocks it has handed out. Block `n` is the
`n`-th block returned; distinct blocks share no byte. -/
structure Heap where
  next : Nat
deriving DecidableEq, Repr

/-- An address: a block and a byte offset from its start. -/
structure Ptr where
  block : Nat
  off : Nat
deriving DecidableEq, Repr

/-- A successful `malloc(size)`: a fresh block. -/
def malloc (h : Heap) (_size : Nat) : Nat × Heap :=
  (h.next, { next := h.next + 1 })

/-- The function `newchunk` of region.c, for a `malloc` that succeeds. -/
def newchunk (h : Heap) (size : Nat) : RegionChunk × Heap :=
  let (r, h1) := malloc h size
  let used :=
    if sizeof_RegionChunk &&& 0x7 ≠ 0 then
      (sizeof_RegionChunk + 8) &&& (SIZE_MOD - 8)
    else
      sizeof_RegionChunk
  ({ addr := r, size := size, used := used, unused := 0xdeadbeef }, h1)

/-- The value of `sizeof(Pool)`: two pointers. -/
def sizeof_Pool : Nat := 16

/-- The function `leaf_newpool` of region.c, for a `malloc` that succeeds: the
pool record takes one block, the first chunk the next. -/
def leaf_newpool (h : Heap) : Pool × Heap :=
  let (_pool, h1) := malloc h sizeof_Pool
  let (r, h2) := newchunk h1 CHUNK_SIZE
  ({ chunks := [r], jumbo := [] }, h2)

/-- The `while (r)` loop of `leaf_alloc`: the first chunk of the chain with
`used + szbytes < size`, in `size_t` arithmetic, serves the request; the result
is the address returned and the chain after it, `none` when the loop ends
without a chunk. -/
def leaf_alloc_scan (szbytes : Nat) : List RegionChunk → Option (Ptr × List RegionChunk)
  | [] => none
  | r :: rest =>
    if (r.used + szbytes) % SIZE_MOD < r.size then
      some ({ block := r.addr, off := r.used },
            { r with used := (r.used + szbytes) % SIZE_MOD } :: rest)
    else
      match leaf_alloc_scan szbytes rest with
      | none => none
      | some (p, rest1) => some (p, r :: rest1)

/-- The function `leaf_alloc` of region.c, for a `malloc` that succeeds: the
address returned, the pool and the heap after the call; `none` is the `NULL`
returned for a null pool. -/
def leaf_alloc (h : Heap) (lpool : Option Pool) (szbytes : Nat) : Option (Ptr × Pool × Heap) :=
  match lpool with
  | none => none
  | some pool =>
    match leaf_alloc_scan szbytes pool.chunks with
    | some (p, chunks1) => some (p, { pool with chunks := chunks1 }, h)
    | none =>
      if szbytes < CHUNK_SIZE - 2 * sizeof_RegionChunkHeader then
        let (r, h1) := newchunk h CHUNK_SIZE
        some ({ block := r.addr, off := r.used },
          { pool with chunks := { r with used := (r.used + szbytes) % SIZE_MOD } :: pool.chunks },
          h1)
      else
        let (r, h1) := newchunk h ((szbytes + 2 * sizeof_RegionChunkHeader) % SIZE_MOD)
        some ({ block := r.addr, off := r.used },
          { pool with jumbo := { r with used := (r.used + szbytes) % SIZE_MOD } :: pool.jumbo },
          h1)

/-- A run of `leaf_alloc` calls on one pool: the addresses returned, in call
order, and the pool and the heap after the run. -/
def leaf_allocs (h : Heap) (pool : Pool) : List Nat → List Ptr × Pool × Heap
  | [] => ([], pool, h)
  | szbytes :: rest =>
    match leaf_alloc h (some pool) szbytes with
    | none => ([], pool, h)
    | some (p, pool1, h1) =>
      let (ps, pool2, h2) := leaf_allocs h1 pool1 rest
      (p :: ps, pool2, h2)

/-- The addresses returned by a run of `leaf_alloc` calls with the request
sizes `reqs` on the pool that `leaf_newpool` returns on heap `h`. -/
def returned (h : Heap) (reqs : List Nat) : List Ptr :=
  (leaf_allocs (leaf_newpool h).2 (leaf_newpool h).1 reqs).1

/-- The pool after that run. -/
def pool_after (h : Heap) (reqs : List Nat) : Pool :=
  (leaf_allocs (leaf_newpool h).2 (leaf_newpool h).1 reqs).2.1

/-- The heap after that run. -/
def heap_after (h : Heap) (reqs : List Nat) : Heap :=
  (leaf_allocs (leaf_newpool h).2 (leaf_newpool h).1 reqs).2.2

/-- The byte ranges `[p, p + n)` and `[q, q + m)` share a byte: they lie in one
block, neither is empty and each starts before the other ends. -/
def overlap (p : Ptr) (n : Nat) (q : Ptr) (m : Nat) : Prop :=
  p.block = q.block ∧ p.off < q.off + m ∧ q.off < p.off + n ∧ 0 < n ∧ 0 < m

instance (p : Ptr) (n : Nat) (q : Ptr) (m : Nat) : Decidable (overlap p n q m) := by
  unfold overlap
  exact inferInstance

/-- The byte range `[p, p + n)` shares a byte with the header of its chunk. -/
def in_header (p : Ptr) (n : Nat) : Prop :=
  0 < n ∧ p.off < sizeof_RegionChunkHeader

instance (p : Ptr) (n : Nat) : Decidable (in_header p n) := by
  unfold in_header
  exact inferInstance

/-- What holds of a pool, the heap and the requests served so far (address and
size, in call order) as long as no request is so large that a `size_t` sum
wraps: the chunks are distinct blocks of the heap with `used` between the header
size and `size`, the standard ones of size `CHUNK_SIZE`; every range served lies
behind the header of its chunk and below `used`; and no two ranges share a
byte. -/
def alloc_invariant (served : List (Ptr × Nat)) (pool : Pool) (h : Heap) : Prop :=
  (∀ c ∈ pool.chunks ++ pool.jumbo,
    c.addr < h.next ∧ sizeof_RegionChunkHeader ≤ c.used ∧ c.used ≤ c.size) ∧
  (∀ c ∈ pool.chunks, c.size = CHUNK_SIZE ∧ c.used < CHUNK_SIZE) ∧
  ((pool.chunks ++ pool.jumbo).map RegionChunk.addr).Nodup ∧
  (∀ a ∈ served, a.1.block < h.next ∧ sizeof_RegionChunkHeader ≤ a.1.off) ∧
  (∀ a ∈ served, ∀ c ∈ pool.chunks ++ pool.jumbo,
    c.addr = a.1.block → a.1.off + a.2 ≤ c.used) ∧
  served.Pairwise (fun a b => ¬ overlap a.1 a.2 b.1 b.2)

/-! ## Properties of `write_buf` -/

theorem to_int_of_range (x : Int) (h0 : INT_MIN ≤ x) (h1 : x ≤ INT_MAX) : to_int x = x := by
  unfold to_int
  unfold INT_MIN at h0
  unfold INT_MAX at h1
  omega

theorem count_of_range (r w : Int) (hw : 0 ≤ w) (h : w < r) (hr : r ≤ INT_MAX) :
    to_size_t (to_int (r - w)) = r - w := by
  unfold to_size_t to_int
  unfold INT_MAX at hr
  omega

theorem buffer_add (mem : Int → Byte) (buf : Int) (a b : Nat) :
    buffer mem buf (a + b) = buffer mem buf a ++ buffer mem (buf + a) b := by
  unfold buffer
  rw [List.range_add, List.map_append, List.map_map]
  congr 1
  apply List.map_congr_left
  intro i _
  simp only [Function.comp_apply]
  congr 1
  push_cast
  ring

theorem write_buf_loop_zero (wr : Nat → Int → Int) (destfd buf r : Int) (fuel k : Nat) (w : Int)
    (h : ¬ w < r) : write_buf_loop wr destfd buf r fuel k w = (some 0, []) := by
  cases fuel <;> simp [write_buf_loop, h]

/-- The calls of a run of the loop from offset `w`: each is issued at the offset
reached so far with the count still missing, a failing call is the last one, and
a run that ends with 0 has transferred the rest of the buffer. -/
theorem write_buf_loop_spec (wr : Nat → Int → Int) (mem : Int → Byte) (destfd buf r : Int)
    (hr : r ≤ INT_MAX) (hwr : ∀ k c, wr k c ≤ c) :
    ∀ (fuel k : Nat) (w : Int), 0 ≤ w →
      (∀ (i : Nat) (c : WriteCall),
          (write_buf_loop wr destfd buf r fuel k w).2[i]? = some c →
            c.fd = destfd ∧
            c.buf = buf + (w + (((write_buf_loop wr destfd buf r fuel k w).2.take i).map
              WriteCall.ret).sum) ∧
            c.count = r - (w + (((write_buf_loop wr destfd buf r fuel k w).2.take i).map
              WriteCall.ret).sum) ∧
            (c.ret < 0 → (write_buf_loop wr destfd buf r fuel k w).1 = some (-1) ∧
              i + 1 = (write_buf_loop wr destfd buf r fuel k w).2.length)) ∧
      ((write_buf_loop wr destfd buf r fuel k w).1 = some 0 →
        transferred mem (write_buf_loop wr destfd buf r fuel k w).2
          = buffer mem (buf + w) (r - w).toNat) := by
  intro fuel
  induction fuel with
  | zero =>
    intro k w _
    by_cases h : w < r
    · simp [write_buf_loop, h]
    · have : (r - w).toNat = 0 := by omega
      simp [write_buf_loop, h, transferred, buffer, this]
  | succ fuel ih =>
    intro k w hw
    by_cases h : w < r
    · have hcnt := count_of_range r w hw h hr
      by_cases hneg : wr k (r - w) < 0
      · have hrun : write_buf_loop wr destfd buf r (fuel + 1) k w
            = (some (-1), [{ fd := destfd, buf := buf + w, count := r - w,
                             ret := wr k (r - w) }]) := by
          simp [write_buf_loop, h, hneg, hcnt]
        rw [hrun]
        refine ⟨?_, by simp⟩
        intro i c hc
        cases i with
        | zero =>
          simp only [List.getElem?_cons_zero, Option.some.injEq] at hc
          subst hc
          simp
        | succ i => simp at hc
      · have hle := hwr k (r - w)
        have hnn : 0 ≤ wr k (r - w) := by omega
        have hw1 : to_int (w + wr k (r - w)) = w + wr k (r - w) := by
          apply to_int_of_range
          · unfold INT_MIN; omega
          · omega
        have hrun : write_buf_loop wr destfd buf r (fuel + 1) k w
            = ((write_buf_loop wr destfd buf r fuel (k + 1) (w + wr k (r - w))).1,
               { fd := destfd, buf := buf + w, count := r - w, ret := wr k (r - w) } ::
               (write_buf_loop wr destfd buf r fuel (k + 1) (w + wr k (r - w))).2) := by
          simp [write_buf_loop, h, hneg, hw1, hcnt]
        rw [hrun]
        obtain ⟨ih1, ih2⟩ := ih (k + 1) (w + wr k (r - w)) (by omega)
        refine ⟨?_, ?_⟩
        · intro i c hc
          cases i with
          | zero =>
            simp only [List.getElem?_cons_zero, Option.some.injEq] at hc
            subst hc
            simp
            omega
          | succ i =>
            simp only [List.getElem?_cons_succ] at hc
            obtain ⟨h1, h2, h3, h4⟩ := ih1 i c hc
            refine ⟨h1, ?_, ?_, ?_⟩
            · rw [h2]; simp; ring
            · rw [h3]; simp; ring
            · intro hlt
              obtain ⟨h5, h6⟩ := h4 hlt
              exact ⟨h5, by simp [h6]⟩
        · intro h0
          have hb := ih2 h0
          have hsplit : (r - w).toNat
              = (wr k (r - w)).toNat + (r - (w + wr k (r - w))).toNat := by omega
          rw [hsplit, buffer_add]
          simp only [transferred, List.map_cons, List.flatten_cons] at hb ⊢
          rw [hb]
          have e1 : WriteCall.bytes mem
              { fd := destfd, buf := buf + w, count := r - w, ret := wr k (r - w) }
              = buffer mem (buf + w) (wr k (r - w)).toNat := rfl
          have e2 : buf + w + ((wr k (r - w)).toNat : Int) = buf + (w + wr k (r - w)) := by
            rw [Int.toNat_of_nonneg hnn]; ring
          rw [e1, e2]
    · have hz : (r - w).toNat = 0 := by omega
      rw [write_buf_loop_zero wr destfd buf r (fuel + 1) k w h]
      simp [transferred, buffer, hz]

/-- The loop ends within as many iterations as bytes are missing when every call
of `write` fails or transfers at least one byte. -/
theorem write_buf_loop_terminates (wr : Nat → Int → Int) (destfd buf r : Int)
    (hr : r ≤ INT_MAX)
    (hwr : ∀ k c, 0 < c → wr k c < 0 ∨ (1 ≤ wr k c ∧ wr k c ≤ c)) :
    ∀ (fuel k : Nat) (w : Int), 0 ≤ w → (r - w).toNat ≤ fuel →
      (∃ ret, (write_buf_loop wr destfd buf r fuel k w).1 = some ret) ∧
      (write_buf_loop wr destfd buf r fuel k w).2.length ≤ (r - w).toNat := by
  intro fuel
  induction fuel with
  | zero =>
    intro k w _ hf
    have h : ¬ w < r := by omega
    simp [write_buf_loop, h]
  | succ fuel ih =>
    intro k w hw hf
    by_cases h : w < r
    · have hcnt := count_of_range r w hw h hr
      by_cases hneg : wr k (r - w) < 0
      · have hrun : write_buf_loop wr destfd buf r (fuel + 1) k w
            = (some (-1), [{ fd := destfd, buf := buf + w, count := r - w,
                             ret := wr k (r - w) }]) := by
          simp [write_buf_loop, h, hneg, hcnt]
        rw [hrun]
        refine ⟨⟨-1, rfl⟩, ?_⟩
        simp
        omega
      · have hle := hwr k (r - w) (by omega)
        have hw1 : to_int (w + wr k (r - w)) = w + wr k (r - w) := by
          apply to_int_of_range
          · unfold INT_MIN; omega
          · omega
        have hrun : write_buf_loop wr destfd buf r (fuel + 1) k w
            = ((write_buf_loop wr destfd buf r fuel (k + 1) (w + wr k (r - w))).1,
               { fd := destfd, buf := buf + w, count := r - w, ret := wr k (r - w) } ::
               (write_buf_loop wr destfd buf r fuel (k + 1) (w + wr k (r - w))).2) := by
          simp [write_buf_loop, h, hneg, hw1, hcnt]
        rw [hrun]
        obtain ⟨ih1, ih2⟩ := ih (k + 1) (w + wr k (r - w)) (by omega) (by omega)
        refine ⟨ih1, ?_⟩
        simp only [List.length_cons]
        omega
    · rw [write_buf_loop_zero wr destfd buf r (fuel + 1) k w h]
      exact ⟨⟨0, rfl⟩, by simp⟩

theorem write_buf_loop_result (wr : Nat → Int → Int) (destfd buf r : Int) :
    ∀ (fuel k : Nat) (w : Int),
      (write_buf_loop wr destfd buf r fuel k w).1 = none ∨
      (write_buf_loop wr destfd buf r fuel k w).1 = some 0 ∨
      (write_buf_loop wr destfd buf r fuel k w).1 = some (-1) := by
  intro fuel
  induction fuel with
  | zero =>
    intro k w
    by_cases h : w < r <;> simp [write_buf_loop, h]
  | succ fuel ih =>
    intro k w
    by_cases h : w < r
    · by_cases hneg : wr k (to_size_t (to_int (r - w))) < 0
      · simp [write_buf_loop, h, hneg]
      · have := ih (k + 1) (to_int (w + wr k (to_size_t (to_int (r - w)))))
        simpa [write_buf_loop, h, hneg] using this
    · simp [write_buf_loop, h]


/-- The loop returns -1 exactly when one of its calls of `write` returned a
negative value. -/
theorem write_buf_loop_failed_iff (wr : Nat → Int → Int) (destfd buf r : Int) :
    ∀ (fuel k : Nat) (w : Int),
      ((write_buf_loop wr destfd buf r fuel k w).1 = some (-1) ↔
        ∃ c ∈ (write_buf_loop wr destfd buf r fuel k w).2, c.ret < 0) := by
  intro fuel
  induction fuel with
  | zero =>
    intro k w
    by_cases h : w < r <;> simp [write_buf_loop, h]
  | succ fuel ih =>
    intro k w
    by_cases h : w < r
    · by_cases hneg : wr k (to_size_t (to_int (r - w))) < 0
      · simp [write_buf_loop, h, hneg]
      · have := ih (k + 1) (to_int (w + wr k (to_size_t (to_int (r - w)))))
        simp only [write_buf_loop, h, hneg, if_true, if_false, List.mem_cons, exists_eq_or_imp]
        rw [this]
        simp [hneg]
    · simp [write_buf_loop, h]

/-- The bytes a run of the loop from offset `w` has transferred are, whatever
its result, the bytes of the buffer from `w` on, without a gap. -/
theorem write_buf_loop_transferred (wr : Nat → Int → Int) (mem : Int → Byte)
    (destfd buf r : Int) (hr : r ≤ INT_MAX) (hwr : ∀ k c, wr k c ≤ c) :
    ∀ (fuel k : Nat) (w : Int), 0 ≤ w →
      transferred mem (write_buf_loop wr destfd buf r fuel k w).2
        = buffer mem (buf + w)
            (transferred mem (write_buf_loop wr destfd buf r fuel k w).2).length ∧
      ((transferred mem (write_buf_loop wr destfd buf r fuel k w).2).length : Int)
        ≤ max (r - w) 0 := by
  intro fuel
  induction fuel with
  | zero =>
    intro k w _
    by_cases h : w < r <;> simp [write_buf_loop, h, transferred, buffer]
  | succ fuel ih =>
    intro k w hw
    by_cases h : w < r
    · have hcnt := count_of_range r w hw h hr
      by_cases hneg : wr k (r - w) < 0
      · have hrun : write_buf_loop wr destfd buf r (fuel + 1) k w
            = (some (-1), [{ fd := destfd, buf := buf + w, count := r - w,
                             ret := wr k (r - w) }]) := by
          simp [write_buf_loop, h, hneg, hcnt]
        have hz : (wr k (r - w)).toNat = 0 := by omega
        rw [hrun]
        simp [transferred, WriteCall.bytes, buffer, hz]
      · have hle := hwr k (r - w)
        have hnn : 0 ≤ wr k (r - w) := by omega
        have hw1 : to_int (w + wr k (r - w)) = w + wr k (r - w) := by
          apply to_int_of_range
          · unfold INT_MIN; omega
          · omega
        have hrun : write_buf_loop wr destfd buf r (fuel + 1) k w
            = ((write_buf_loop wr destfd buf r fuel (k + 1) (w + wr k (r - w))).1,
               { fd := destfd, buf := buf + w, count := r - w, ret := wr k (r - w) } ::
               (write_buf_loop wr destfd buf r fuel (k + 1) (w + wr k (r - w))).2) := by
          simp [write_buf_loop, h, hneg, hw1, hcnt]
        rw [hrun]
        obtain ⟨ih1, ih2⟩ := ih (k + 1) (w + wr k (r - w)) (by omega)
        have e1 : WriteCall.bytes mem
            { fd := destfd, buf := buf + w, count := r - w, ret := wr k (r - w) }
            = buffer mem (buf + w) (wr k (r - w)).toNat := rfl
        have e2 : buf + w + ((wr k (r - w)).toNat : Int) = buf + (w + wr k (r - w)) := by
          rw [Int.toNat_of_nonneg hnn]; ring
        have e3 : (buffer mem (buf + w) (wr k (r - w)).toNat).length = (wr k (r - w)).toNat := by
          simp [buffer]
        simp only [transferred, List.map_cons, List.flatten_cons, List.length_append] at ih1 ih2 ⊢
        rw [e1, e3]
        refine ⟨?_, ?_⟩
        · rw [buffer_add, e2, ← ih1]
        · push_cast
          rw [Int.toNat_of_nonneg hnn]
          have hmax : max (r - (w + wr k (r - w))) 0 = r - (w + wr k (r - w)) :=
            max_eq_left (by omega)
          have hmax2 : max (r - w) 0 = r - w := max_eq_left (by omega)
          rw [hmax] at ih2
          rw [hmax2]
          omega
    · rw [write_buf_loop_zero wr destfd buf r (fuel + 1) k w h]
      simp [transferred, buffer]

/-- The loop is still running only when it has used up its iterations, with one
call of `write` in each. -/
theorem write_buf_loop_running (wr : Nat → Int → Int) (destfd buf r : Int) :
    ∀ (fuel k : Nat) (w : Int),
      (write_buf_loop wr destfd buf r fuel k w).1 = none →
      (write_buf_loop wr destfd buf r fuel k w).2.length = fuel := by
  intro fuel
  induction fuel with
  | zero =>
    intro k w
    by_cases h : w < r <;> simp [write_buf_loop, h]
  | succ fuel ih =>
    intro k w
    by_cases h : w < r
    · by_cases hneg : wr k (to_size_t (to_int (r - w))) < 0
      · simp [write_buf_loop, h, hneg]
      · have := ih (k + 1) (to_int (w + wr k (to_size_t (to_int (r - w)))))
        simpa [write_buf_loop, h, hneg] using this
    · simp [write_buf_loop, h]

theorem transferred_length (mem : Int → Byte) :
    ∀ (calls : List WriteCall), (∀ c ∈ calls, 0 ≤ c.ret) →
      ((transferred mem calls).length : Int) = (calls.map WriteCall.ret).sum := by
  intro calls
  induction calls with
  | nil => intro _; simp [transferred]
  | cons c cs ih =>
    intro h
    have hc : 0 ≤ c.ret := h c (List.mem_cons_self _ _)
    have hcs := ih (fun d hd => h d (List.mem_cons_of_mem _ hd))
    simp only [transferred, List.map_cons, List.flatten_cons, List.length_append,
      List.sum_cons] at hcs ⊢
    push_cast
    rw [hcs]
    simp [WriteCall.bytes, Int.toNat_of_nonneg hc]

/-- C7. For a length `r` that is an `int` and a `write` that never transfers
more than it is asked for: every call of `write` that `write_buf` makes is on
`destfd`, at the address `buf + w` and with the count `r - w`, where `w` is the
number of bytes transferred by the calls before it; a call that returns a
negative value is the last one and makes `write_buf` return -1; when `write_buf`
returns 0 the bytes transferred, in call order, are `buf[0..r)`; `write_buf`
returns -1 only when a call of `write` returned a negative value, and it
returns nothing but 0 or -1; and whatever it returns, the bytes transferred are
the first bytes of the buffer, without a gap and no more than `r`; it is still
running after `fuel` iterations only when each of them has made its call of
`write`. -/
theorem write_buf_whole_or_first_error (wr : Nat → Int → Int) (mem : Int → Byte) (fuel : Nat)
    (destfd buf r verbose : Int) (hr : r ≤ INT_MAX) (hwr : ∀ k c, wr k c ≤ c) :
    (∀ (i : Nat) (c : WriteCall), (write_buf wr fuel destfd buf r verbose).2[i]? = some c →
        c.fd = destfd ∧
        c.buf = buf + (transferred mem ((write_buf wr fuel destfd buf r verbose).2.take i)).length ∧
        c.count = r - (transferred mem ((write_buf wr fuel destfd buf r verbose).2.take i)).length ∧
        (c.ret < 0 → (write_buf wr fuel destfd buf r verbose).1 = some (-1) ∧
          i + 1 = (write_buf wr fuel destfd buf r verbose).2.length)) ∧
    ((write_buf wr fuel destfd buf r verbose).1 = some 0 →
      transferred mem (write_buf wr fuel destfd buf r verbose).2 = buffer mem buf r.toNat) ∧
    ((write_buf wr fuel destfd buf r verbose).1 = some (-1) ↔
      ∃ c ∈ (write_buf wr fuel destfd buf r verbose).2, c.ret < 0) ∧
    (∀ ret, (write_buf wr fuel destfd buf r verbose).1 = some ret → ret = 0 ∨ ret = -1) ∧
    transferred mem (write_buf wr fuel destfd buf r verbose).2
      = buffer mem buf (transferred mem (write_buf wr fuel destfd buf r verbose).2).length ∧
    ((transferred mem (write_buf wr fuel destfd buf r verbose).2).length : Int) ≤ max r 0 ∧
    ((write_buf wr fuel destfd buf r verbose).1 = none →
      (write_buf wr fuel destfd buf r verbose).2.length = fuel) := by
  obtain ⟨h1, h2⟩ := write_buf_loop_spec wr mem destfd buf r hr hwr fuel 0 0 (le_refl 0)
  have h3 := write_buf_loop_failed_iff wr destfd buf r fuel 0 0
  have h4 := write_buf_loop_result wr destfd buf r fuel 0 0
  obtain ⟨h5, h6⟩ := write_buf_loop_transferred wr mem destfd buf r hr hwr fuel 0 0 (le_refl 0)
  unfold write_buf
  refine ⟨?_, ?_, h3, ?_, ?_, ?_, write_buf_loop_running wr destfd buf r fuel 0 0⟩
  · intro i c hc
    obtain ⟨a1, a2, a3, a4⟩ := h1 i c hc
    have hlt : i < (write_buf_loop wr destfd buf r fuel 0 0).2.length := by
      by_contra hge
      rw [List.getElem?_eq_none (by omega)] at hc
      exact Option.noConfusion hc
    have hpos : ∀ d ∈ (write_buf_loop wr destfd buf r fuel 0 0).2.take i, 0 ≤ d.ret := by
      intro d hd
      obtain ⟨j, hj, hdj⟩ := List.getElem_of_mem hd
      rw [List.length_take] at hj
      have hj1 : j < i := by omega
      have hdj2 : (write_buf_loop wr destfd buf r fuel 0 0).2[j]? = some d := by
        rw [List.getElem_take] at hdj
        rw [List.getElem?_eq_getElem (by omega)]
        exact congrArg some hdj
      by_contra hneg
      have := (h1 j d hdj2).2.2.2 (by omega)
      omega
    rw [transferred_length mem _ hpos]
    refine ⟨a1, ?_, ?_, a4⟩
    · rw [a2]; simp
    · rw [a3]; simp
  · intro h0
    have := h2 h0
    simpa using this
  · intro ret hret
    rcases h4 with h | h | h
    · rw [h] at hret; exact Option.noConfusion hret
    · rw [h] at hret; exact Or.inl (Option.some.inj hret).symm
    · rw [h] at hret; exact Or.inr (Option.some.inj hret).symm
  · simpa using h5
  · simpa using h6

theorem write_buf_whole_or_first_error_witness :
    (write_buf (fun k c => if k = 0 then min c 3 else c) 5 4 1000 10 0).2
        = [{ fd := 4, buf := 1000, count := 10, ret := 3 },
           { fd := 4, buf := 1003, count := 7, ret := 7 }] ∧
    transferred (fun a => a.toNat.toUInt8)
        (write_buf (fun k c => if k = 0 then min c 3 else c) 5 4 1000 10 0).2
      = buffer (fun a => a.toNat.toUInt8) 1000 10 ∧
    (write_buf (fun k c => if k = 0 then min c 3 else min c (-1)) 5 4 1000 10 0).2
        = [{ fd := 4, buf := 1000, count := 10, ret := 3 },
           { fd := 4, buf := 1003, count := 7, ret := -1 }] ∧
    (write_buf (fun k c => if k = 0 then min c 3 else min c (-1)) 5 4 1000 10 0).1
      = some (-1) :=
  ⟨by decide,
   (write_buf_whole_or_first_error (fun k c => if k = 0 then min c 3 else c)
      (fun a => a.toNat.toUInt8) 5 4 1000 10 0 (by decide)
      (by intro k c; dsimp only; split <;> omega)).2.1 (by decide),
   by decide,
   (write_buf_whole_or_first_error (fun k c => if k = 0 then min c 3 else min c (-1))
      (fun a => a.toNat.toUInt8) 5 4 1000 10 0 (by decide)
      (by intro k c; dsimp only; split <;> omega)).2.2.1.mpr
     ⟨{ fd := 4, buf := 1003, count := 7, ret := -1 }, by decide, by decide⟩⟩

theorem write_buf_stalls (destfd buf : Int) :
    ∀ (fuel k : Nat), write_buf_loop (fun _ _ => 0) destfd buf 1 fuel k 0 =
      (none, List.replicate fuel { fd := destfd, buf := buf + 0, count := 1, ret := 0 }) := by
  intro fuel
  induction fuel with
  | zero => intro k; simp [write_buf_loop]
  | succ fuel ih =>
    intro k
    have h0 : to_int 0 = 0 := by decide
    have h1 : to_size_t (to_int 1) = 1 := by decide
    have h2 : to_size_t (to_int (1 - 0)) = 1 := by decide
    simp [write_buf_loop, h0, h1, h2, ih (k + 1), List.replicate_succ]

/-- C10. For a length `r` that is an `int` and a `write` whose every call fails
or transfers at least one and at most the requested number of bytes,
`write_buf` returns within `max(r, 0)` iterations, after at most `max(r, 0)`
calls of `write`; for `r <= 0` it returns 0 without calling `write`. The
progress of `write` is needed: with a `write` that always returns 0 and
`r = 1`, the loop is still running after any number of iterations. -/
theorem write_buf_terminates (wr : Nat → Int → Int) (fuel : Nat) (destfd buf r verbose : Int)
    (hr : r ≤ INT_MAX)
    (hwr : ∀ k c, 0 < c → wr k c < 0 ∨ (1 ≤ wr k c ∧ wr k c ≤ c))
    (hfuel : (max r 0).toNat ≤ fuel) :
    (∃ ret, (write_buf wr fuel destfd buf r verbose).1 = some ret) ∧
    (write_buf wr fuel destfd buf r verbose).2.length ≤ (max r 0).toNat ∧
    (r ≤ 0 → write_buf wr fuel destfd buf r verbose = (some 0, [])) ∧
    (∀ n, (write_buf (fun _ _ => 0) n destfd buf 1 verbose).1 = none) := by
  have hm : (max r 0).toNat = (r - 0).toNat := by
    rcases le_total r 0 with h | h
    · rw [max_eq_right h]; omega
    · rw [max_eq_left h]; simp
  obtain ⟨h1, h2⟩ := write_buf_loop_terminates wr destfd buf r hr hwr fuel 0 0 (le_refl 0)
    (by omega)
  unfold write_buf
  refine ⟨h1, by omega, ?_, ?_⟩
  · intro h
    exact write_buf_loop_zero wr destfd buf r fuel 0 0 (by omega)
  · intro n
    rw [write_buf_stalls destfd buf n 0]

theorem write_buf_terminates_witness :
    (∃ ret, (write_buf (fun _ c => min c 4) 10 4 1000 10 0).1 = some ret) ∧
    (write_buf (fun _ c => min c 4) 10 4 1000 10 0).2.length ≤ 10 :=
  ⟨(write_buf_terminates (fun _ c => min c 4) 10 4 1000 10 0 (by decide)
      (by intro k c hc; right; dsimp only; omega) (by decide)).1,
   (write_buf_terminates (fun _ c => min c 4) 10 4 1000 10 0 (by decide)
      (by intro k c hc; right; dsimp only; omega) (by decide)).2.1⟩

/-! ## Properties of `pump_lilly` -/

theorem event_loop_spec (event : Nat → Int × Int) :
    ∀ (n fuel k : Nat), n < fuel → (∀ j, j < n → 0 < (event (k + j)).1) →
      (event (k + n)).1 ≤ 0 →
      event_loop event fuel k = some ((event (k + n)).1, (event (k + n)).2, k + n + 1) := by
  intro n
  induction n with
  | zero =>
    intro fuel k hf _ hn
    obtain ⟨f, rfl⟩ : ∃ f, fuel = f + 1 := ⟨fuel - 1, by omega⟩
    have hn0 : ¬ (event k).1 > 0 := by simpa using hn
    simp [event_loop, hn0]
  | succ n ih =>
    intro fuel k hf hpos hn
    obtain ⟨f, rfl⟩ : ∃ f, fuel = f + 1 := ⟨fuel - 1, by omega⟩
    have h0 : (event k).1 > 0 := by simpa using hpos 0 (by omega)
    have hrec := ih f (k + 1) (by omega)
      (fun j hj => by
        have := hpos (j + 1) (by omega)
        rwa [show k + 1 + j = k + (j + 1) by omega])
      (by rwa [show k + 1 + n = k + (n + 1) by omega])
    rw [show k + 1 + n = k + (n + 1) by omega] at hrec
    simp [event_loop, h0, hrec]

/-- C5, as the code has it. In an invocation where `lillyget_event` returns
positive values `n` times and then a value that is not positive, and
`lillyput_event` returns positive values `m` times and then a value that is not
positive, neither of the two last values being a fatal error (negative with
`errno` other than `EAGAIN`), `pump_lilly` returns: -1 when the last value of
`lillyget_event` is 0, and 0 otherwise. Nothing else decides: not the calls of
`lillyget_event` before the last, and no call of `lillyput_event`. -/
theorem pump_lilly_end_of_session (lillyget_event lillyput_event : Nat → Int × Int)
    (n m fuel : Nat)
    (hget : ∀ j, j < n → 0 < (lillyget_event j).1) (hgetn : (lillyget_event n).1 ≤ 0)
    (hput : ∀ j, j < m → 0 < (lillyput_event j).1) (hputm : (lillyput_event m).1 ≤ 0)
    (hgfatal : ¬ ((lillyget_event n).1 < 0 ∧ (lillyget_event n).2 ≠ EAGAIN))
    (hpfatal : ¬ ((lillyput_event m).1 < 0 ∧ (lillyput_event m).2 ≠ EAGAIN))
    (hn : n < fuel) (hm : m < fuel) :
    pump_lilly lillyget_event lillyput_event fuel
      = some (if (lillyget_event n).1 = 0 then -1 else 0) := by
  have hg := event_loop_spec lillyget_event n fuel 0 hn
    (fun j hj => by simpa using hget j hj) (by simpa using hgetn)
  have hp := event_loop_spec lillyput_event m fuel 0 hm
    (fun j hj => by simpa using hput j hj) (by simpa using hputm)
  simp only [Nat.zero_add] at hg hp
  unfold pump_lilly
  rw [hg]
  simp only [hp]
  rw [if_neg hgfatal, if_neg hpfatal]
  by_cases h0 : (lillyget_event n).1 = 0
  · have h0r : (0 : Int) = (lillyget_event n).1 := h0.symm
    simp [h0, hputm]
  · have h0r : ¬ (0 : Int) = (lillyget_event n).1 := fun h => h0 h.symm
    simp [h0, h0r]

theorem pump_lilly_end_of_session_witness :
    pump_lilly (fun k => if k < 2 then (5, 0) else (-1, 11)) (fun k => if k < 1 then (7, 0) else (0, 0)) 4
      = some (if ((fun k => if k < 2 then ((5 : Int), (0 : Int)) else (-1, 11)) 2).1 = 0 then -1 else 0) :=
  pump_lilly_end_of_session (fun k => if k < 2 then (5, 0) else (-1, 11))
    (fun k => if k < 1 then (7, 0) else (0, 0)) 2 1 4
    (by intro j hj; simp [hj]) (by decide) (by intro j hj; simp [hj]) (by decide)
    (by decide) (by decide) (by decide) (by decide)

/-- C5, the claim as written fails. Here `lillyget_event` returns 5 and then 0
(calls 0 and 1) and `lillyput_event` returns 0 (call 0): there is no fatal
error, and `pump_lilly` returns -1 although a call of `lillyget_event` returned
a positive value. So the return of -1 is not equivalent to: no call of
`lillyget_event` returned a positive value, the last one returned 0, and no call
of `lillyput_event` returned a positive value. -/
theorem pump_lilly_ends_after_input :
    pump_lilly (fun k => if k = 0 then (5, 0) else (0, 0)) (fun _ => (0, 0)) 3 = some (-1) ∧
    ¬ (pump_lilly (fun k => if k = 0 then (5, 0) else (0, 0)) (fun _ => (0, 0)) 3 = some (-1) ↔
        ((∀ j, j ≤ 1 → ¬ 0 < ((fun k => if k = 0 then ((5 : Int), (0 : Int)) else (0, 0)) j).1) ∧
         ((fun k => if k = 0 then ((5 : Int), (0 : Int)) else (0, 0)) 1).1 = 0 ∧
         (∀ j, j ≤ 0 → ¬ 0 < ((fun _ => ((0 : Int), (0 : Int))) j).1))) := by
  decide

/-! ## The capture file name -/

theorem decimal_aux_length :
    ∀ (fuel n e : Nat) (acc : List Char), 1 ≤ e → n < 10 ^ e →
      (decimal_aux fuel n acc).length ≤ e + acc.length := by
  intro fuel
  induction fuel with
  | zero => intro n e acc _ _; simp [decimal_aux]
  | succ fuel ih =>
    intro n e acc he hn
    by_cases h : n < 10
    · simp [decimal_aux, h]; omega
    · obtain ⟨e1, rfl⟩ : ∃ e1, e = e1 + 1 := ⟨e - 1, by omega⟩
      have he1 : 1 ≤ e1 := by
        rcases Nat.eq_zero_or_pos e1 with h0 | h0
        · subst h0; simp at hn; omega
        · exact h0
      have hn1 : n / 10 < 10 ^ e1 := by
        rw [Nat.div_lt_iff_lt_mul (by decide)]
        rw [pow_succ] at hn
        exact hn
      have := ih (n / 10) e1 (Nat.digitChar (n % 10) :: acc) he1 hn1
      simp only [decimal_aux, h, if_false]
      simp only [List.length_cons] at this
      omega

theorem decimal_aux_eq_toDigitsCore :
    ∀ (fuel n : Nat) (acc : List Char),
      decimal_aux fuel n acc = Nat.toDigitsCore 10 fuel n acc := by
  intro fuel
  induction fuel with
  | zero => intro n acc; rfl
  | succ fuel ih =>
    intro n acc
    by_cases h : n < 10
    · have h0 : n / 10 = 0 := by omega
      have h1 : n % 10 = n := by omega
      simp [decimal_aux, Nat.toDigitsCore, h, h0, h1]
    · have h0 : ¬ n / 10 = 0 := by omega
      simp [decimal_aux, Nat.toDigitsCore, h, h0, ih]

/-- The digits computed are those of the decimal representation of the library. -/
theorem decimal_eq_toDigits (n : Nat) : decimal n = Nat.toDigits 10 n :=
  decimal_aux_eq_toDigitsCore (n + 1) n []

theorem decimal_length (n e : Nat) (he : 1 ≤ e) (hn : n < 10 ^ e) : (decimal n).length ≤ e := by
  have := decimal_aux_length (n + 1) n e [] he hn
  simpa [decimal] using this

theorem fmt_d_zero (v : Int) : fmt_d 0 v = decimal_int v := by
  unfold fmt_d decimal_int
  split <;> simp

theorem fmt_d_six (s : Nat) : fmt_d 6 (s : Int) = zero_padded 6 s := by
  unfold fmt_d zero_padded
  have h : ¬ ((s : Int) < 0) := by omega
  simp [h]

theorem decimal_int_length (v : Int) (h0 : INT_MIN ≤ v) (h1 : v ≤ INT_MAX) :
    (decimal_int v).length ≤ 11 := by
  unfold INT_MIN at h0
  unfold INT_MAX at h1
  have hd : (decimal v.natAbs).length ≤ 10 :=
    decimal_length v.natAbs 10 (by decide) (by omega)
  unfold decimal_int
  split <;> simp <;> omega

theorem zero_padded_length (s : Nat) (h1 : (s : Int) ≤ INT_MAX) :
    6 ≤ (zero_padded 6 s).length ∧ (zero_padded 6 s).length ≤ 10 ∧
    (s < 1000000 → (zero_padded 6 s).length = 6) := by
  unfold INT_MAX at h1
  have hd : (decimal s).length ≤ 10 := decimal_length s 10 (by decide) (by omega)
  unfold zero_padded
  simp only [List.length_append, List.length_replicate]
  refine ⟨by omega, by omega, ?_⟩
  intro hs
  have := decimal_length s 6 (by decide) (by omega)
  omega

theorem snprintf_capture_name (s : Nat) (fd : Int) (hs : (s : Int) ≤ INT_MAX)
    (h0 : INT_MIN ≤ fd) (h1 : fd ≤ INT_MAX) :
    snprintf 64 "msg.%06d.%d.bin" [(s : Int), fd] = capture_name s fd ∧
    (capture_name s fd).length < 64 := by
  have hp := zero_padded_length s hs
  have hf := decimal_int_length fd h0 h1
  have hlen : (capture_name s fd).length < 64 := by
    simp [capture_name]
    omega
  refine ⟨?_, hlen⟩
  have hfmt : printf_format "msg.%06d.%d.bin".toList [(s : Int), fd] = capture_name s fd := by
    show "msg.".toList ++ (fmt_d 6 (s : Int) ++ (".".toList ++ (fmt_d 0 fd ++ ".bin".toList)))
      = capture_name s fd
    rw [fmt_d_zero, fmt_d_six]
    simp [capture_name]
  unfold snprintf
  rw [hfmt]
  apply List.take_of_length_le
  omega

/-! ## Properties of `lillydump_dercursor` -/

theorem opened_append (a b : List Event) : opened (a ++ b) = opened a ++ opened b := by
  induction a with
  | nil => rfl
  | cons e a ih => cases e <;> simp [opened, ih]

theorem opened_write (calls : List WriteCall) : opened (calls.map Event.write) = [] := by
  induction calls with
  | nil => rfl
  | cons c calls ih => simp [opened, ih]

theorem forwarded_append (a b : List Event) : forwarded (a ++ b) = forwarded a ++ forwarded b := by
  induction a with
  | nil => rfl
  | cons e a ih => cases e <;> simp [forwarded, ih]

theorem forwarded_write (calls : List WriteCall) : forwarded (calls.map Event.write) = [] := by
  induction calls with
  | nil => rfl
  | cons c calls ih => simp [forwarded, ih]

/-- The four ways a call of `lillydump_dercursor` goes: `open` fails; `write_buf`
never returns; `write_buf` fails; the message is forwarded. -/
theorem lillydump_dercursor_cases (env : Env) (fuel : Nat) (w : World) (lil : LDAPX)
    (qpool : Nat) (dermsg : dercursor) (path : List Char) (fd : Int)
    (rc : Option Int) (calls : List WriteCall)
    (hpath : path = snprintf 64 "msg.%06d.%d.bin" [w.ints lil.serial, lil.ldap.get_fd])
    (hfd : fd = env.open_ w.trace path)
    (hwb : (rc, calls) = write_buf (env.write (w.trace ++ [Event.open_ path fd])) fuel fd
      dermsg.derptr (to_int dermsg.derlen) 0) :
    (lillydump_dercursor env fuel w lil qpool dermsg).2.ints
        = store w.ints lil.serial (to_int (w.ints lil.serial + 1)) ∧
    ((fd < 0 ∧
      (lillydump_dercursor env fuel w lil qpool dermsg).1 = some (-1) ∧
      (lillydump_dercursor env fuel w lil qpool dermsg).2.trace
        = w.trace ++ [Event.open_ path fd]) ∨
     (0 ≤ fd ∧ rc = none ∧
      (lillydump_dercursor env fuel w lil qpool dermsg).1 = none ∧
      (lillydump_dercursor env fuel w lil qpool dermsg).2.trace
        = w.trace ++ [Event.open_ path fd] ++ calls.map Event.write) ∨
     (0 ≤ fd ∧ (∃ v, rc = some v ∧ v < 0) ∧
      (lillydump_dercursor env fuel w lil qpool dermsg).1 = some (-1) ∧
      (lillydump_dercursor env fuel w lil qpool dermsg).2.trace
        = w.trace ++ [Event.open_ path fd] ++ calls.map Event.write ++ [Event.close fd]) ∨
     (0 ≤ fd ∧ (∃ v, rc = some v ∧ 0 ≤ v) ∧
      (lillydump_dercursor env fuel w lil qpool dermsg).1
        = some (env.lillyput_dercursor
            (w.trace ++ [Event.open_ path fd] ++ calls.map Event.write ++ [Event.close fd])
            lil qpool dermsg) ∧
      (lillydump_dercursor env fuel w lil qpool dermsg).2.trace
        = w.trace ++ [Event.open_ path fd] ++ calls.map Event.write ++ [Event.close fd]
          ++ [Event.lillyput_dercursor lil qpool dermsg
              (env.lillyput_dercursor
                (w.trace ++ [Event.open_ path fd] ++ calls.map Event.write ++ [Event.close fd])
                lil qpool dermsg)])) := by
  subst hpath
  subst hfd
  unfold lillydump_dercursor
  simp only []
  rw [← hwb]
  by_cases h : env.open_ w.trace
      (snprintf 64 "msg.%06d.%d.bin" [w.ints lil.serial, lil.ldap.get_fd]) < 0
  · simp [h]
  · have h' : 0 ≤ env.open_ w.trace
        (snprintf 64 "msg.%06d.%d.bin" [w.ints lil.serial, lil.ldap.get_fd]) := by omega
    rw [if_neg h]
    cases rc with
    | none => simp [h, h']
    | some v =>
      by_cases hv : v < 0
      · simp [h, h', hv]
      · have hv' : 0 ≤ v := by omega
        simp [h, h', hv, hv']

theorem to_int_range (x : Int) : INT_MIN ≤ to_int x ∧ to_int x ≤ INT_MAX := by
  unfold to_int INT_MIN INT_MAX
  omega

theorem to_int_succ (x : Int) : to_int (to_int x + 1) = to_int (x + 1) := by
  unfold to_int
  omega

theorem lillydump_dercursor_opened (env : Env) (fuel : Nat) (w : World) (lil : LDAPX)
    (qpool : Nat) (dermsg : dercursor) :
    opened (lillydump_dercursor env fuel w lil qpool dermsg).2.trace
      = opened w.trace ++ [snprintf 64 "msg.%06d.%d.bin" [w.ints lil.serial, lil.ldap.get_fd]] := by
  obtain ⟨_, h⟩ := lillydump_dercursor_cases env fuel w lil qpool dermsg _ _ _ _ rfl rfl rfl
  rcases h with ⟨_, _, ht⟩ | ⟨_, _, _, ht⟩ | ⟨_, _, _, ht⟩ | ⟨_, _, _, ht⟩ <;>
    rw [ht] <;> simp [opened_append, opened_write, opened]

theorem lillydump_dercursor_serial (env : Env) (fuel : Nat) (w : World) (lil : LDAPX)
    (qpool : Nat) (dermsg : dercursor) :
    (lillydump_dercursor env fuel w lil qpool dermsg).2.ints lil.serial
      = to_int (w.ints lil.serial + 1) := by
  obtain ⟨h, _⟩ := lillydump_dercursor_cases env fuel w lil qpool dermsg _ _ _ _ rfl rfl rfl
  rw [h]
  simp [store]

theorem lillydump_dercursor_returns (env : Env) (fuel : Nat) (w : World) (lil : LDAPX)
    (qpool : Nat) (dermsg : dercursor) (hp : env.write_progress) (hfuel : 2147483647 ≤ fuel) :
    ∃ ret, (lillydump_dercursor env fuel w lil qpool dermsg).1 = some ret := by
  obtain ⟨_, h⟩ := lillydump_dercursor_cases env fuel w lil qpool dermsg _ _ _ _ rfl rfl rfl
  rcases h with ⟨_, hr, _⟩ | ⟨_, hnone, _, _⟩ | ⟨_, _, hr, _⟩ | ⟨_, _, hr, _⟩
  · exact ⟨_, hr⟩
  · exfalso
    have hrange := to_int_range (dermsg.derlen : Int)
    have hI : INT_MAX = 2147483647 := rfl
    obtain ⟨⟨ret, hret⟩, _⟩ := write_buf_loop_terminates
      (env.write (w.trace ++ [Event.open_
        (snprintf 64 "msg.%06d.%d.bin" [w.ints lil.serial, lil.ldap.get_fd])
        (env.open_ w.trace
          (snprintf 64 "msg.%06d.%d.bin" [w.ints lil.serial, lil.ldap.get_fd]))]))
      (env.open_ w.trace (snprintf 64 "msg.%06d.%d.bin" [w.ints lil.serial, lil.ldap.get_fd]))
      dermsg.derptr (to_int dermsg.derlen) hrange.2 (hp _) fuel 0 0 (le_refl 0) (by omega)
    rw [hret] at hnone
    exact Option.noConfusion hnone
  · exact ⟨_, hr⟩
  · exact ⟨_, hr⟩

/-! ## The serial numbers of a session -/

theorem captures_counter (env : Env) (fuel : Nat) (ldap_server ldap_client : LDAPX)
    (addr : Nat) (hs : ldap_server.serial = addr) (hc : ldap_client.serial = addr) :
    ∀ (caps : List Capture) (w : World) (v : Int), w.ints addr = to_int v →
      (captures env fuel ldap_server ldap_client w caps).1.ints addr
        = to_int (v + (captures env fuel ldap_server ldap_client w caps).2) ∧
      (captures env fuel ldap_server ldap_client w caps).2 ≤ caps.length := by
  intro caps
  induction caps with
  | nil => intro w v hv; simpa [captures] using hv
  | cons c rest ih =>
    intro w v hv
    have hser : (if c.from_server then ldap_server else ldap_client).serial = addr := by
      split <;> assumption
    have h1 := lillydump_dercursor_serial env fuel w
      (if c.from_server then ldap_server else ldap_client) c.qpool c.dermsg
    rw [hser, hv, to_int_succ] at h1
    unfold captures
    rcases hout : lillydump_dercursor env fuel w
        (if c.from_server then ldap_server else ldap_client) c.qpool c.dermsg with ⟨o, w1⟩
    rw [hout] at h1
    cases o with
    | none => simpa using h1
    | some ret =>
      obtain ⟨a, b⟩ := ih w1 (v + 1) h1
      simp only [List.length_cons]
      refine ⟨?_, by omega⟩
      rw [a]
      congr 1
      push_cast
      ring

theorem captures_opened (env : Env) (fuel : Nat) (ldap_server ldap_client : LDAPX)
    (addr : Nat) (hs : ldap_server.serial = addr) (hc : ldap_client.serial = addr) :
    ∀ (caps : List Capture) (w : World) (k : Nat), k + caps.length ≤ 2147483647 →
      w.ints addr = k →
      opened (captures env fuel ldap_server ldap_client w caps).1.trace
        = opened w.trace ++
          (serial_names ldap_server.ldap.get_fd ldap_client.ldap.get_fd k caps).take
            (captures env fuel ldap_server ldap_client w caps).2 := by
  intro caps
  induction caps with
  | nil => intro w k _ _; simp [captures, serial_names]
  | cons c rest ih =>
    intro w k hk hv
    have hser : (if c.from_server then ldap_server else ldap_client).serial = addr := by
      split <;> assumption
    have hfd : (if c.from_server then ldap_server else ldap_client).ldap.get_fd
        = if c.from_server then ldap_server.ldap.get_fd else ldap_client.ldap.get_fd := by
      split <;> rfl
    have h1 := lillydump_dercursor_serial env fuel w
      (if c.from_server then ldap_server else ldap_client) c.qpool c.dermsg
    have h2 := lillydump_dercursor_opened env fuel w
      (if c.from_server then ldap_server else ldap_client) c.qpool c.dermsg
    simp only [List.length_cons] at hk
    have hk1 : to_int ((k : Int) + 1) = ((k + 1 : Nat) : Int) := by
      rw [to_int_of_range]
      · push_cast; ring
      · unfold INT_MIN; omega
      · unfold INT_MAX; omega
    rw [hser, hv, hk1] at h1
    rw [hser, hv, hfd] at h2
    unfold captures
    rcases hout : lillydump_dercursor env fuel w
        (if c.from_server then ldap_server else ldap_client) c.qpool c.dermsg with ⟨o, w1⟩
    rw [hout] at h1 h2
    cases o with
    | none => simpa [serial_names] using h2
    | some ret =>
      have := ih w1 (k + 1) (by omega) h1
      simp only [serial_names, List.take_succ_cons]
      rw [this, h2]
      simp

theorem captures_all (env : Env) (fuel : Nat) (ldap_server ldap_client : LDAPX)
    (hret : ∀ (w : World) (lil : LDAPX) (qpool : Nat) (dermsg : dercursor),
      ∃ ret, (lillydump_dercursor env fuel w lil qpool dermsg).1 = some ret) :
    ∀ (caps : List Capture) (w : World),
      (captures env fuel ldap_server ldap_client w caps).2 = caps.length := by
  intro caps
  induction caps with
  | nil => intro w; rfl
  | cons c rest ih =>
    intro w
    obtain ⟨ret, hr⟩ := hret w (if c.from_server then ldap_server else ldap_client)
      c.qpool c.dermsg
    unfold captures
    rcases hout : lillydump_dercursor env fuel w
        (if c.from_server then ldap_server else ldap_client) c.qpool c.dermsg with ⟨o, w1⟩
    rw [hout] at hr
    simp only at hr
    subst hr
    simp [ih w1]

theorem captures_open_fails (env : Env) (fuel : Nat) (ldap_server ldap_client : LDAPX)
    (hopen : ∀ (trace : List Event) (path : List Char), env.open_ trace path < 0) :
    ∀ (caps : List Capture) (w : World),
      (captures env fuel ldap_server ldap_client w caps).2 = caps.length := by
  apply captures_all
  intro w lil qpool dermsg
  obtain ⟨_, h⟩ := lillydump_dercursor_cases env fuel w lil qpool dermsg _ _ _ _ rfl rfl rfl
  have hneg := hopen w.trace (snprintf 64 "msg.%06d.%d.bin" [w.ints lil.serial, lil.ldap.get_fd])
  rcases h with ⟨_, hr, _⟩ | ⟨h0, _⟩ | ⟨h0, _⟩ | ⟨h0, _⟩
  · exact ⟨_, hr⟩
  · omega
  · omega
  · omega

/-- C4, for sessions of at most `INT_MAX` captures. Both connections point at
the one counter, which `dump_lilly_packets` sets to 0. Whatever the order in
which the two connections call `lillydump_dercursor`, and whatever `open`,
`write` and `lillyput_dercursor` return: the files opened, in order, are those
of the serial numbers 0, 1, 2, ... (the `i`-th call uses `i`, with the
descriptor of its own side), and the counter ends as the number of calls made.
All the calls are made when `write` makes progress and no `write_buf` is cut
short. -/
theorem serial_numbers_in_capture_order (env : Env) (fuel : Nat) (server_fd client_fd : Int)
    (serial_addr : Nat) (w : World) (caps : List Capture) (hlen : caps.length ≤ 2147483647) :
    opened (session env fuel server_fd client_fd serial_addr w caps).1.trace
      = opened w.trace ++ (serial_names server_fd client_fd 0 caps).take
          (session env fuel server_fd client_fd serial_addr w caps).2 ∧
    (session env fuel server_fd client_fd serial_addr w caps).1.ints serial_addr
      = ((session env fuel server_fd client_fd serial_addr w caps).2 : Int) ∧
    (session env fuel server_fd client_fd serial_addr w caps).2 ≤ caps.length ∧
    (env.write_progress → 2147483647 ≤ fuel →
      (session env fuel server_fd client_fd serial_addr w caps).2 = caps.length) := by
  unfold session dump_lilly_packets_init
  simp only []
  have h0 : (store w.ints serial_addr 0) serial_addr = to_int (0 : Int) := by
    simp [store]; decide
  have h0' : (store w.ints serial_addr 0) serial_addr = ((0 : Nat) : Int) := by
    simp [store]
  obtain ⟨a, b⟩ := captures_counter env fuel
    { ldap := { get_fd := server_fd, put_fd := client_fd }, serial := serial_addr }
    { ldap := { get_fd := client_fd, put_fd := server_fd }, serial := serial_addr }
    serial_addr rfl rfl caps { ints := store w.ints serial_addr 0, trace := w.trace } 0 h0
  have c := captures_opened env fuel
    { ldap := { get_fd := server_fd, put_fd := client_fd }, serial := serial_addr }
    { ldap := { get_fd := client_fd, put_fd := server_fd }, serial := serial_addr }
    serial_addr rfl rfl caps { ints := store w.ints serial_addr 0, trace := w.trace } 0
    (by omega) h0'
  refine ⟨c, ?_, b, ?_⟩
  · rw [a, to_int_of_range]
    · simp
    · unfold INT_MIN; omega
    · unfold INT_MAX; omega
  · intro hp hfuel
    exact captures_all env fuel _ _
      (fun w lil qpool dermsg => lillydump_dercursor_returns env fuel w lil qpool dermsg hp hfuel)
      caps _

theorem serial_numbers_in_capture_order_witness :
    serial_names 3 5 0 sample_captures
      = ["msg.000000.5.bin".toList, "msg.000001.3.bin".toList] ∧
    (session sample_env 30 3 5 0 sample_world sample_captures).2 = 2 ∧
    (session sample_env 30 3 5 0 sample_world sample_captures).1.ints 0
      = ((session sample_env 30 3 5 0 sample_world sample_captures).2 : Int) :=
  ⟨by decide, by decide,
   (serial_numbers_in_capture_order sample_env 30 3 5 0 sample_world sample_captures
      (by decide)).2.1⟩

/-- C4, the claim as written fails. The counter is an `int`: in a session of
2^31 captures (here every `open` fails, so every call returns at once) all 2^31
calls are made and the counter, which the claim has equal to 2^31, is -2^31
(the increment at `INT_MAX` wraps; no `int` equals 2^31). -/
theorem serial_counter_wraps :
    (session no_file_env 0 3 5 0 sample_world (List.replicate 2147483648 empty_capture)).2
      = 2147483648 ∧
    (session no_file_env 0 3 5 0 sample_world
      (List.replicate 2147483648 empty_capture)).1.ints 0 = -2147483648 := by
  have hn := captures_open_fails no_file_env 0
    { ldap := { get_fd := 3, put_fd := 5 }, serial := 0 }
    { ldap := { get_fd := 5, put_fd := 3 }, serial := 0 }
    (fun _ _ => (by decide : (-1 : Int) < 0))
    (List.replicate 2147483648 empty_capture)
    { ints := store sample_world.ints 0 0, trace := sample_world.trace }
  obtain ⟨a, _⟩ := captures_counter no_file_env 0
    { ldap := { get_fd := 3, put_fd := 5 }, serial := 0 }
    { ldap := { get_fd := 5, put_fd := 3 }, serial := 0 }
    0 rfl rfl
    (List.replicate 2147483648 empty_capture)
    { ints := store sample_world.ints 0 0, trace := sample_world.trace } 0 (by decide)
  rw [List.length_replicate] at hn
  rw [hn] at a
  have hw : to_int (0 + ((2147483648 : Nat) : Int)) = -2147483648 := by
    unfold to_int
    omega
  have hsession : session no_file_env 0 3 5 0 sample_world
      (List.replicate 2147483648 empty_capture)
      = captures no_file_env 0
          { ldap := { get_fd := 3, put_fd := 5 }, serial := 0 }
          { ldap := { get_fd := 5, put_fd := 3 }, serial := 0 }
          { ints := store sample_world.ints 0 0, trace := sample_world.trace }
          (List.replicate 2147483648 empty_capture) := rfl
  rw [hsession]
  exact ⟨hn, a.trans hw⟩

/-- C8, with a serial field of at least six digits. For a counter value `s`
from 0 to `INT_MAX` and a descriptor that is an `int`, the one file
`lillydump_dercursor` opens is named `msg.`, then `s` in decimal padded with
zeros to six digits, then `.`, the descriptor of the source in decimal and
`.bin`; the name is shorter than the 64 bytes of the buffer, so nothing is cut;
the serial field has at least six digits, and exactly six when `s < 1000000`;
the name uses the value of the counter before the increment, which leaves
`s + 1` in the counter (for `s` below `INT_MAX`). -/
theorem capture_file_name (env : Env) (fuel : Nat) (w : World) (lil : LDAPX) (qpool : Nat)
    (dermsg : dercursor) (s : Nat) (hs : w.ints lil.serial = (s : Int))
    (hmax : (s : Int) ≤ INT_MAX)
    (h0 : INT_MIN ≤ lil.ldap.get_fd) (h1 : lil.ldap.get_fd ≤ INT_MAX) :
    opened (lillydump_dercursor env fuel w lil qpool dermsg).2.trace
      = opened w.trace ++ [capture_name s lil.ldap.get_fd] ∧
    (capture_name s lil.ldap.get_fd).length < 64 ∧
    6 ≤ (zero_padded 6 s).length ∧
    (s < 1000000 → (zero_padded 6 s).length = 6) ∧
    ((s : Int) < INT_MAX →
      (lillydump_dercursor env fuel w lil qpool dermsg).2.ints lil.serial = (s : Int) + 1) := by
  have hname := snprintf_capture_name s lil.ldap.get_fd hmax h0 h1
  have hpad := zero_padded_length s hmax
  have hopen := lillydump_dercursor_opened env fuel w lil qpool dermsg
  have hser := lillydump_dercursor_serial env fuel w lil qpool dermsg
  rw [hs, hname.1] at hopen
  refine ⟨hopen, hname.2, hpad.1, hpad.2.2, ?_⟩
  intro hlt
  rw [hs, to_int_of_range _ (by unfold INT_MIN; omega) (by omega)] at hser
  exact hser

theorem capture_file_name_witness :
    capture_name 0 5 = "msg.000000.5.bin".toList ∧
    opened (lillydump_dercursor sample_env 30
      { ints := fun _ => 0, trace := [] }
      { ldap := { get_fd := 5, put_fd := 3 }, serial := 0 } 1
      { derptr := 100, derlen := 10 }).2.trace = [] ++ [capture_name 0 5] :=
  ⟨by decide,
   (capture_file_name sample_env 30 { ints := fun _ => 0, trace := [] }
      { ldap := { get_fd := 5, put_fd := 3 }, serial := 0 } 1 { derptr := 100, derlen := 10 }
      0 (by decide) (by decide) (by decide) (by decide)).1⟩

/-- C8, the claim as written fails. A session reaches the counter value 1000000
(after 1000000 captures), and the file `lillydump_dercursor` then opens is
`msg.1000000.5.bin`: the serial field has seven digits, not six. -/
theorem serial_field_seven_digits :
    (session no_file_env 0 3 5 0 sample_world (List.replicate 1000000 empty_capture)).1.ints 0
      = 1000000 ∧
    opened (lillydump_dercursor no_file_env 0
      { ints := fun _ => 1000000, trace := [] }
      { ldap := { get_fd := 5, put_fd := 3 }, serial := 0 } 1
      { derptr := 100, derlen := 10 }).2.trace = ["msg.1000000.5.bin".toList] ∧
    (zero_padded 6 1000000).length = 7 := by
  have hn := captures_open_fails no_file_env 0
    { ldap := { get_fd := 3, put_fd := 5 }, serial := 0 }
    { ldap := { get_fd := 5, put_fd := 3 }, serial := 0 }
    (fun _ _ => (by decide : (-1 : Int) < 0))
    (List.replicate 1000000 empty_capture)
    { ints := store sample_world.ints 0 0, trace := sample_world.trace }
  obtain ⟨a, _⟩ := captures_counter no_file_env 0
    { ldap := { get_fd := 3, put_fd := 5 }, serial := 0 }
    { ldap := { get_fd := 5, put_fd := 3 }, serial := 0 }
    0 rfl rfl
    (List.replicate 1000000 empty_capture)
    { ints := store sample_world.ints 0 0, trace := sample_world.trace } 0 (by decide)
  rw [List.length_replicate] at hn
  rw [hn] at a
  have hw : to_int (0 + ((1000000 : Nat) : Int)) = 1000000 := by
    unfold to_int
    omega
  have hsession : session no_file_env 0 3 5 0 sample_world
      (List.replicate 1000000 empty_capture)
      = captures no_file_env 0
          { ldap := { get_fd := 3, put_fd := 5 }, serial := 0 }
          { ldap := { get_fd := 5, put_fd := 3 }, serial := 0 }
          { ints := store sample_world.ints 0 0, trace := sample_world.trace }
          (List.replicate 1000000 empty_capture) := rfl
  rw [hsession]
  exact ⟨a.trans hw, by decide, by decide⟩

/-! ## Forwarding -/

/-- What a call of `lillydump_dercursor` does, the conversion of the length to
`int` apart. With `path` the name computed, `fd` the value `open` returns, and
`rc` and `calls` the value `write_buf` returns and the calls of `write` it makes:
the call forwards the message exactly when the file was created (`0 <= fd`) and
`write_buf` returned 0, and it forwards nothing else; when it forwards, what it
does is, in this order, `open`, the calls of `write`, `close` and last
`lillyput_dercursor` with the connection, pool and message it received, whose
value it returns; when the file cannot be created or `write_buf` fails it
returns -1; and when it forwards a message of at most `INT_MAX` bytes, `write`
never transferring more than it is asked for, the bytes handed to `write` are
those of the message. -/
theorem forward_only_after_capture (env : Env) (fuel : Nat) (w : World) (lil : LDAPX)
    (qpool : Nat) (dermsg : dercursor) (mem : Int → Byte) (path : List Char) (fd : Int)
    (rc : Option Int) (calls : List WriteCall)
    (hpath : path = snprintf 64 "msg.%06d.%d.bin" [w.ints lil.serial, lil.ldap.get_fd])
    (hfd : fd = env.open_ w.trace path)
    (hwb : (rc, calls) = write_buf (env.write (w.trace ++ [Event.open_ path fd])) fuel fd
      dermsg.derptr (to_int dermsg.derlen) 0) :
    ((0 ≤ fd ∧ rc = some 0) ↔
      forwarded (lillydump_dercursor env fuel w lil qpool dermsg).2.trace
        = forwarded w.trace ++ [(lil, qpool, dermsg)]) ∧
    (¬ (0 ≤ fd ∧ rc = some 0) →
      forwarded (lillydump_dercursor env fuel w lil qpool dermsg).2.trace = forwarded w.trace) ∧
    ((0 ≤ fd ∧ rc = some 0) →
      (lillydump_dercursor env fuel w lil qpool dermsg).2.trace
        = w.trace ++ [Event.open_ path fd] ++ calls.map Event.write ++ [Event.close fd]
          ++ [Event.lillyput_dercursor lil qpool dermsg
              (env.lillyput_dercursor
                (w.trace ++ [Event.open_ path fd] ++ calls.map Event.write ++ [Event.close fd])
                lil qpool dermsg)] ∧
      (lillydump_dercursor env fuel w lil qpool dermsg).1
        = some (env.lillyput_dercursor
            (w.trace ++ [Event.open_ path fd] ++ calls.map Event.write ++ [Event.close fd])
            lil qpool dermsg)) ∧
    ((fd < 0 ∨ (0 ≤ fd ∧ rc = some (-1))) →
      (lillydump_dercursor env fuel w lil qpool dermsg).1 = some (-1)) ∧
    ((0 ≤ fd ∧ rc = some 0) → (dermsg.derlen : Int) ≤ INT_MAX →
      (∀ k c, env.write (w.trace ++ [Event.open_ path fd]) k c ≤ c) →
      transferred mem calls = buffer mem dermsg.derptr dermsg.derlen) := by
  obtain ⟨_, h⟩ := lillydump_dercursor_cases env fuel w lil qpool dermsg path fd rc calls
    hpath hfd hwb
  have hres := write_buf_loop_result (env.write (w.trace ++ [Event.open_ path fd])) fd
    dermsg.derptr (to_int dermsg.derlen) fuel 0 0
  have hrc : rc = (write_buf_loop (env.write (w.trace ++ [Event.open_ path fd])) fd
    dermsg.derptr (to_int dermsg.derlen) fuel 0 0).1 := congrArg Prod.fst hwb
  have hcalls : calls = (write_buf_loop (env.write (w.trace ++ [Event.open_ path fd])) fd
    dermsg.derptr (to_int dermsg.derlen) fuel 0 0).2 := congrArg Prod.snd hwb
  rw [← hrc] at hres
  have hfull : (0 ≤ fd ∧ rc = some 0) → (dermsg.derlen : Int) ≤ INT_MAX →
      (∀ k c, env.write (w.trace ++ [Event.open_ path fd]) k c ≤ c) →
      transferred mem calls = buffer mem dermsg.derptr dermsg.derlen := by
    intro hok hlen hwr
    have hr : to_int (dermsg.derlen : Int) = dermsg.derlen :=
      to_int_of_range _ (by unfold INT_MIN; omega) hlen
    have := (write_buf_loop_spec (env.write (w.trace ++ [Event.open_ path fd])) mem fd
      dermsg.derptr (to_int dermsg.derlen) (by rw [hr]; exact hlen) hwr fuel 0 0
      (le_refl 0)).2 (by rw [← hrc]; exact hok.2)
    rw [← hcalls, hr] at this
    simpa using this
  rcases h with ⟨hneg, hret, ht⟩ | ⟨hpos, hnone, hret, ht⟩ | ⟨hpos, ⟨v, hv, hvneg⟩, hret, ht⟩ |
    ⟨hpos, ⟨v, hv, hvpos⟩, hret, ht⟩
  · have hno : ¬ (0 ≤ fd ∧ rc = some 0) := fun hh => by omega
    refine ⟨⟨fun hh => absurd hh hno, ?_⟩, ?_, fun hh => absurd hh hno, fun _ => hret, hfull⟩
    · rw [ht]; simp [forwarded_append, forwarded]
    · intro _; rw [ht]; simp [forwarded_append, forwarded]
  · have hno : ¬ (0 ≤ fd ∧ rc = some 0) := fun hh => by
      rw [hnone] at hh; exact Option.noConfusion hh.2
    refine ⟨⟨fun hh => absurd hh hno, ?_⟩, ?_, fun hh => absurd hh hno, ?_, hfull⟩
    · rw [ht]; simp [forwarded_append, forwarded, forwarded_write]
    · intro _; rw [ht]; simp [forwarded_append, forwarded, forwarded_write]
    · rintro (hh | hh)
      · omega
      · rw [hnone] at hh; exact Option.noConfusion hh.2
  · have hno : ¬ (0 ≤ fd ∧ rc = some 0) := fun hh => by
      rw [hv] at hh
      have := Option.some.inj hh.2
      omega
    refine ⟨⟨fun hh => absurd hh hno, ?_⟩, ?_, fun hh => absurd hh hno, fun _ => hret, hfull⟩
    · rw [ht]; simp [forwarded_append, forwarded, forwarded_write]
    · intro _; rw [ht]; simp [forwarded_append, forwarded, forwarded_write]
  · have hv0 : rc = some 0 := by
      rcases hres with hh | hh | hh
      · rw [hv] at hh; exact Option.noConfusion hh
      · exact hh
      · rw [hv] at hh
        have := Option.some.inj hh
        omega
    have hok : 0 ≤ fd ∧ rc = some 0 := ⟨hpos, hv0⟩
    refine ⟨⟨fun _ => ?_, fun _ => hok⟩, fun hh => absurd hok hh, fun _ => ⟨ht, hret⟩, ?_, hfull⟩
    · rw [ht]; simp [forwarded_append, forwarded, forwarded_write]
    · rintro (hh | hh)
      · omega
      · rw [hv0] at hh
        have := Option.some.inj hh.2
        omega

theorem forward_only_after_capture_witness :
    (lillydump_dercursor sample_env 30 sample_world
      { ldap := { get_fd := 5, put_fd := 3 }, serial := 0 } 1
      { derptr := 100, derlen := 10 }).2.trace
      = [Event.open_ "msg.000099.5.bin".toList 7,
         Event.write { fd := 7, buf := 100, count := 10, ret := 8 },
         Event.write { fd := 7, buf := 108, count := 2, ret := 2 },
         Event.close 7,
         Event.lillyput_dercursor { ldap := { get_fd := 5, put_fd := 3 }, serial := 0 } 1
           { derptr := 100, derlen := 10 } 0] ∧
    transferred (fun a => a.toNat.toUInt8)
        [{ fd := 7, buf := 100, count := 10, ret := 8 },
         { fd := 7, buf := 108, count := 2, ret := 2 }]
      = buffer (fun a => a.toNat.toUInt8) 100 10 :=
  ⟨by decide,
   (forward_only_after_capture sample_env 30 sample_world
      { ldap := { get_fd := 5, put_fd := 3 }, serial := 0 } 1 { derptr := 100, derlen := 10 }
      (fun a => a.toNat.toUInt8) "msg.000099.5.bin".toList 7 (some 0)
      [{ fd := 7, buf := 100, count := 10, ret := 8 },
       { fd := 7, buf := 108, count := 2, ret := 2 }]
      (by decide) (by decide) (by decide)).2.2.2.2 ⟨by decide, rfl⟩ (by decide)
      (by intro k c; show min c 8 ≤ c; omega)⟩

/-- C6, the failing input. A message of 2^31 bytes, with `open` succeeding: the
length becomes the `int` -2^31, the loop of `write_buf` is not entered and
`write_buf` returns 0, the file is closed without a single call of `write`, and
the message is forwarded (the call returns what `lillyput_dercursor` returns)
although none of its bytes is in the file. -/
theorem forwarded_without_capture :
    to_int ((2147483648 : Nat) : Int) = -2147483648 ∧
    (lillydump_dercursor sample_env 30 sample_world
      { ldap := { get_fd := 5, put_fd := 3 }, serial := 0 } 1
      { derptr := 100, derlen := 2147483648 }).2.trace
      = [Event.open_ "msg.000099.5.bin".toList 7,
         Event.close 7,
         Event.lillyput_dercursor { ldap := { get_fd := 5, put_fd := 3 }, serial := 0 } 1
           { derptr := 100, derlen := 2147483648 } 0] ∧
    (lillydump_dercursor sample_env 30 sample_world
      { ldap := { get_fd := 5, put_fd := 3 }, serial := 0 } 1
      { derptr := 100, derlen := 2147483648 }).1 = some 0 ∧
    written (lillydump_dercursor sample_env 30 sample_world
      { ldap := { get_fd := 5, put_fd := 3 }, serial := 0 } 1
      { derptr := 100, derlen := 2147483648 }).2.trace = [] ∧
    forwarded (lillydump_dercursor sample_env 30 sample_world
      { ldap := { get_fd := 5, put_fd := 3 }, serial := 0 } 1
      { derptr := 100, derlen := 2147483648 }).2.trace
      = [({ ldap := { get_fd := 5, put_fd := 3 }, serial := 0 }, 1,
          { derptr := 100, derlen := 2147483648 })] := by
  decide

/-! ## Properties of the region allocator -/

theorem newchunk_eq (h : Heap) (size : Nat) :
    newchunk h size
      = ({ addr := h.next, size := size, used := 32, unused := 0xdeadbeef },
         { next := h.next + 1 }) := rfl

theorem leaf_alloc_scan_none (szbytes : Nat) :
    ∀ (chunks : List RegionChunk),
      (∀ c ∈ chunks, ¬ (c.used + szbytes) % SIZE_MOD < c.size) →
      leaf_alloc_scan szbytes chunks = none := by
  intro chunks
  induction chunks with
  | nil => intro _; rfl
  | cons c rest ih =>
    intro h
    have hc := h c (List.mem_cons_self _ _)
    have hr := ih (fun d hd => h d (List.mem_cons_of_mem _ hd))
    simp [leaf_alloc_scan, hc, hr]

theorem leaf_alloc_scan_some (szbytes : Nat) (c : RegionChunk) (post : List RegionChunk)
    (hc : (c.used + szbytes) % SIZE_MOD < c.size) :
    ∀ (pre : List RegionChunk),
      (∀ d ∈ pre, ¬ (d.used + szbytes) % SIZE_MOD < d.size) →
      leaf_alloc_scan szbytes (pre ++ c :: post)
        = some ({ block := c.addr, off := c.used },
                pre ++ { c with used := (c.used + szbytes) % SIZE_MOD } :: post) := by
  intro pre
  induction pre with
  | nil => intro _; simp [leaf_alloc_scan, hc]
  | cons d pre ih =>
    intro h
    have hd := h d (List.mem_cons_self _ _)
    have hr := ih (fun e he => h e (List.mem_cons_of_mem _ he))
    simp [leaf_alloc_scan, hd, hr]

theorem first_fit_split (fits : RegionChunk → Prop) [DecidablePred fits] :
    ∀ (chunks : List RegionChunk), (∃ c ∈ chunks, fits c) →
      ∃ pre c post, chunks = pre ++ c :: post ∧ (∀ d ∈ pre, ¬ fits d) ∧ fits c := by
  intro chunks
  induction chunks with
  | nil => rintro ⟨c, hc, _⟩; simp at hc
  | cons a rest ih =>
    rintro ⟨c, hc, hf⟩
    by_cases ha : fits a
    · exact ⟨[], a, rest, rfl, by simp, ha⟩
    · have hrest : ∃ c ∈ rest, fits c := by
        rcases List.mem_cons.mp hc with rfl | hm
        · exact absurd hf ha
        · exact ⟨c, hm, hf⟩
      obtain ⟨pre, c1, post, h1, h2, h3⟩ := ih hrest
      refine ⟨a :: pre, c1, post, by simp [h1], ?_, h3⟩
      intro d hd
      rcases List.mem_cons.mp hd with rfl | hm
      · exact ha
      · exact h2 d hm

/-- The three ways a call of `leaf_alloc` on a non-null pool goes: a chunk of
the standard chain serves the request, or a new standard chunk, or a new jumbo
chunk. -/
theorem leaf_alloc_cases (h : Heap) (pool : Pool) (szbytes : Nat) :
    (∃ pre c post, pool.chunks = pre ++ c :: post ∧
      (∀ d ∈ pre, ¬ (d.used + szbytes) % SIZE_MOD < d.size) ∧
      (c.used + szbytes) % SIZE_MOD < c.size ∧
      leaf_alloc h (some pool) szbytes
        = some ({ block := c.addr, off := c.used },
            { chunks := pre ++ { c with used := (c.used + szbytes) % SIZE_MOD } :: post,
              jumbo := pool.jumbo }, h)) ∨
    ((∀ c ∈ pool.chunks, ¬ (c.used + szbytes) % SIZE_MOD < c.size) ∧
      szbytes < CHUNK_SIZE - 2 * sizeof_RegionChunkHeader ∧
      leaf_alloc h (some pool) szbytes
        = some ({ block := h.next, off := 32 },
            { chunks := { addr := h.next, size := CHUNK_SIZE,
                          used := (32 + szbytes) % SIZE_MOD, unused := 0xdeadbeef }
                        :: pool.chunks,
              jumbo := pool.jumbo }, { next := h.next + 1 })) ∨
    ((∀ c ∈ pool.chunks, ¬ (c.used + szbytes) % SIZE_MOD < c.size) ∧
      ¬ szbytes < CHUNK_SIZE - 2 * sizeof_RegionChunkHeader ∧
      leaf_alloc h (some pool) szbytes
        = some ({ block := h.next, off := 32 },
            { chunks := pool.chunks,
              jumbo := { addr := h.next,
                         size := (szbytes + 2 * sizeof_RegionChunkHeader) % SIZE_MOD,
                         used := (32 + szbytes) % SIZE_MOD, unused := 0xdeadbeef }
                       :: pool.jumbo }, { next := h.next + 1 })) := by
  by_cases hfit : ∃ c ∈ pool.chunks, (c.used + szbytes) % SIZE_MOD < c.size
  · left
    obtain ⟨pre, c, post, h1, h2, h3⟩ :=
      first_fit_split (fun c => (c.used + szbytes) % SIZE_MOD < c.size) pool.chunks hfit
    refine ⟨pre, c, post, h1, h2, h3, ?_⟩
    have hs := leaf_alloc_scan_some szbytes c post h3 pre h2
    rw [← h1] at hs
    simp [leaf_alloc, hs]
  · right
    have hnone : ∀ c ∈ pool.chunks, ¬ (c.used + szbytes) % SIZE_MOD < c.size :=
      fun c hc hf => hfit ⟨c, hc, hf⟩
    have hs := leaf_alloc_scan_none szbytes pool.chunks hnone
    by_cases hsz : szbytes < CHUNK_SIZE - 2 * sizeof_RegionChunkHeader
    · left
      refine ⟨hnone, hsz, ?_⟩
      simp [leaf_alloc, hs, hsz, newchunk_eq]
    · right
      refine ⟨hnone, hsz, ?_⟩
      simp [leaf_alloc, hs, hsz, newchunk_eq]

theorem leaf_allocs_invariant (I : Pool → Heap → Prop)
    (hstep : ∀ (h : Heap) (pool : Pool) (szbytes : Nat) (p : Ptr) (pool1 : Pool) (h1 : Heap),
      I pool h → leaf_alloc h (some pool) szbytes = some (p, pool1, h1) → I pool1 h1) :
    ∀ (reqs : List Nat) (h : Heap) (pool : Pool), I pool h →
      I (leaf_allocs h pool reqs).2.1 (leaf_allocs h pool reqs).2.2 := by
  intro reqs
  induction reqs with
  | nil => intro h pool hI; exact hI
  | cons sz rest ih =>
    intro h pool hI
    unfold leaf_allocs
    rcases hout : leaf_alloc h (some pool) sz with _ | ⟨p, pool1, h1⟩
    · exact hI
    · exact ih h1 pool1 (hstep h pool sz p pool1 h1 hI hout)

/-- Every chunk of the standard chain has the size `CHUNK_SIZE` and fewer bytes
used. -/
theorem standard_chunks (h : Heap) (reqs : List Nat) :
    ∀ c ∈ (pool_after h reqs).chunks, c.size = CHUNK_SIZE ∧ c.used < CHUNK_SIZE := by
  unfold pool_after
  apply leaf_allocs_invariant
    (fun pool _ => ∀ c ∈ pool.chunks, c.size = CHUNK_SIZE ∧ c.used < CHUNK_SIZE)
  · intro h pool sz p pool1 h1 hI hout
    rcases leaf_alloc_cases h pool sz with ⟨pre, c, post, e1, _, e3, e4⟩ | ⟨_, e2, e3⟩ | ⟨_, _, e3⟩
    · rw [e4] at hout
      simp only [Option.some.injEq, Prod.mk.injEq] at hout
      obtain ⟨_, rfl, _⟩ := hout
      intro d hd
      simp only [List.mem_append, List.mem_cons] at hd
      have hc := hI c (by rw [e1]; simp)
      rcases hd with hd | rfl | hd
      · exact hI d (by rw [e1]; simp [hd])
      · exact ⟨hc.1, by simp only; rw [← hc.1]; exact e3⟩
      · exact hI d (by rw [e1]; simp [hd])
    · rw [e3] at hout
      simp only [Option.some.injEq, Prod.mk.injEq] at hout
      obtain ⟨_, rfl, _⟩ := hout
      intro d hd
      simp only [List.mem_cons] at hd
      rcases hd with rfl | hd
      · refine ⟨rfl, ?_⟩
        simp only [CHUNK_SIZE, sizeof_RegionChunkHeader, SIZE_MOD] at e2 ⊢
        omega
      · exact hI d hd
    · rw [e3] at hout
      simp only [Option.some.injEq, Prod.mk.injEq] at hout
      obtain ⟨_, rfl, _⟩ := hout
      exact hI
  · intro c hc
    have : c = { addr := h.next + 1, size := CHUNK_SIZE, used := 32, unused := 0xdeadbeef } := by
      simpa [leaf_newpool, newchunk_eq, malloc] using hc
    subst this
    exact ⟨rfl, (by decide : 32 < CHUNK_SIZE)⟩

theorem standard_fit_iff (h : Heap) (reqs : List Nat) (szbytes : Nat) (hsz : szbytes < CHUNK_SIZE) :
    ∀ c ∈ (pool_after h reqs).chunks,
      (c.used + szbytes) % SIZE_MOD = c.used + szbytes := by
  intro c hc
  have := (standard_chunks h reqs c hc).2
  apply Nat.mod_eq_of_lt
  simp only [CHUNK_SIZE, SIZE_MOD] at *
  omega

/-- C9. In a pool that `leaf_newpool` and any calls of `leaf_alloc` have
produced, when some chunk of the standard chain has `used + szbytes < size`,
`leaf_alloc` returns the address at offset `used` of the first such chunk of the
chain, adds `szbytes` to the `used` of that chunk and changes nothing else: the
other chunks, the order and length of the standard chain, the jumbo chain and
the heap stay as they are. -/
theorem first_fit (h : Heap) (reqs : List Nat) (szbytes : Nat)
    (hfit : ∃ c ∈ (pool_after h reqs).chunks, c.used + szbytes < c.size) :
    ∃ pre c post, (pool_after h reqs).chunks = pre ++ c :: post ∧
      (∀ d ∈ pre, ¬ d.used + szbytes < d.size) ∧
      c.used + szbytes < c.size ∧
      leaf_alloc (heap_after h reqs) (some (pool_after h reqs)) szbytes
        = some ({ block := c.addr, off := c.used },
            { chunks := pre ++ { c with used := c.used + szbytes } :: post,
              jumbo := (pool_after h reqs).jumbo },
            heap_after h reqs) := by
  obtain ⟨c0, hc0, hf0⟩ := hfit
  have hsz : szbytes < CHUNK_SIZE := by
    have := (standard_chunks h reqs c0 hc0).1
    omega
  have hmod := standard_fit_iff h reqs szbytes hsz
  rcases leaf_alloc_cases (heap_after h reqs) (pool_after h reqs) szbytes with
    ⟨pre, c, post, e1, e2, e3, e4⟩ | ⟨e1, _⟩ | ⟨e1, _⟩
  · have hcm : c ∈ (pool_after h reqs).chunks := by rw [e1]; simp
    rw [hmod c hcm] at e3 e4
    refine ⟨pre, c, post, e1, ?_, e3, e4⟩
    intro d hd
    have hdm : d ∈ (pool_after h reqs).chunks := by rw [e1]; simp [hd]
    have := e2 d hd
    rwa [hmod d hdm] at this
  · exact absurd (by rw [hmod c0 hc0]; exact hf0) (e1 c0 hc0)
  · exact absurd (by rw [hmod c0 hc0]; exact hf0) (e1 c0 hc0)

theorem first_fit_witness :
    (pool_after { next := 0 } [100, 65450]).chunks
      = [{ addr := 2, size := 65536, used := 65482, unused := 0xdeadbeef },
         { addr := 1, size := 65536, used := 132, unused := 0xdeadbeef }] ∧
    leaf_alloc (heap_after { next := 0 } [100, 65450])
        (some (pool_after { next := 0 } [100, 65450])) 400
      = some ({ block := 1, off := 132 },
          { chunks := [{ addr := 2, size := 65536, used := 65482, unused := 0xdeadbeef },
                       { addr := 1, size := 65536, used := 532, unused := 0xdeadbeef }],
            jumbo := [] }, { next := 3 }) ∧
    ∃ pre c post, (pool_after { next := 0 } [100, 65450]).chunks = pre ++ c :: post ∧
      (∀ d ∈ pre, ¬ d.used + 400 < d.size) ∧
      c.used + 400 < c.size ∧
      leaf_alloc (heap_after { next := 0 } [100, 65450])
          (some (pool_after { next := 0 } [100, 65450])) 400
        = some ({ block := c.addr, off := c.used },
            { chunks := pre ++ { c with used := c.used + 400 } :: post,
              jumbo := (pool_after { next := 0 } [100, 65450]).jumbo },
            heap_after { next := 0 } [100, 65450]) :=
  ⟨by decide, by decide,
   first_fit { next := 0 } [100, 65450] 400
     ⟨{ addr := 1, size := 65536, used := 132, unused := 0xdeadbeef }, by decide, by decide⟩⟩

/-- C3, with the jumbo chunk only when no standard chunk has room. In a pool
that `leaf_newpool` and any calls of `leaf_alloc` have produced:
a request of `CHUNK_SIZE - 2*sizeof(RegionChunkHeader) - 1` bytes is served at
offset `used` of a chunk of the standard chain, or of a new chunk of size
`CHUNK_SIZE` put at the head of that chain, the bytes returned lie within the
chunk, and the jumbo chain stays as it is;
a request of one byte more, when no chunk of the standard chain has
`used + szbytes < size`, puts a new chunk of size
`szbytes + 2*sizeof(RegionChunkHeader)` at the head of the jumbo chain, returns
the bytes behind the header of that chunk, within the chunk, and leaves the
standard chain as it is. -/
theorem jumbo_threshold (h : Heap) (reqs : List Nat) :
    (∃ p pool1 h1 c,
      leaf_alloc (heap_after h reqs) (some (pool_after h reqs))
          (CHUNK_SIZE - 2 * sizeof_RegionChunkHeader - 1) = some (p, pool1, h1) ∧
      pool1.jumbo = (pool_after h reqs).jumbo ∧
      c ∈ pool1.chunks ∧ p.block = c.addr ∧
      p.off + (CHUNK_SIZE - 2 * sizeof_RegionChunkHeader - 1) = c.used ∧ c.used ≤ c.size ∧
      ((∃ pre c0 post, (pool_after h reqs).chunks = pre ++ c0 :: post ∧
          pool1.chunks = pre ++ c :: post ∧ c.addr = c0.addr ∧ c.size = c0.size ∧
          p.off = c0.used) ∨
       (pool1.chunks = c :: (pool_after h reqs).chunks ∧ c.size = CHUNK_SIZE ∧
          c.addr = (heap_after h reqs).next ∧ p.off = sizeof_RegionChunk))) ∧
    ((∀ c ∈ (pool_after h reqs).chunks,
        ¬ c.used + (CHUNK_SIZE - 2 * sizeof_RegionChunkHeader) < c.size) →
      ∃ p pool1 h1 c,
        leaf_alloc (heap_after h reqs) (some (pool_after h reqs))
          (CHUNK_SIZE - 2 * sizeof_RegionChunkHeader) = some (p, pool1, h1) ∧
        pool1.jumbo = c :: (pool_after h reqs).jumbo ∧
        pool1.chunks = (pool_after h reqs).chunks ∧
        c.size = CHUNK_SIZE - 2 * sizeof_RegionChunkHeader + 2 * sizeof_RegionChunkHeader ∧
        c.addr = (heap_after h reqs).next ∧
        p.block = c.addr ∧ p.off = sizeof_RegionChunk ∧
        p.off + (CHUNK_SIZE - 2 * sizeof_RegionChunkHeader) = c.used ∧ c.used ≤ c.size) := by
  have hk : CHUNK_SIZE - 2 * sizeof_RegionChunkHeader = 65472 := rfl
  have hk1 : CHUNK_SIZE - 2 * sizeof_RegionChunkHeader - 1 = 65471 := rfl
  have hC : CHUNK_SIZE = 65536 := rfl
  have hH : sizeof_RegionChunkHeader = 32 := rfl
  have hR : sizeof_RegionChunk = 32 := rfl
  have hM : SIZE_MOD = 18446744073709551616 := rfl
  refine ⟨?_, ?_⟩
  · rw [hk1]
    have hmod := standard_fit_iff h reqs 65471 (by decide)
    rcases leaf_alloc_cases (heap_after h reqs) (pool_after h reqs) 65471 with
      ⟨pre, c, post, e1, _, e3, e4⟩ | ⟨_, _, e3⟩ | ⟨_, e2, _⟩
    · have hcm : c ∈ (pool_after h reqs).chunks := by rw [e1]; simp
      rw [hmod c hcm] at e3 e4
      refine ⟨_, _, _, { c with used := c.used + 65471 }, e4, rfl, by simp, rfl, rfl,
        by simp only; omega, Or.inl ⟨pre, c, post, e1, rfl, rfl, rfl, rfl⟩⟩
    · refine ⟨_, _, _, _, e3, rfl, List.mem_cons_self _ _, rfl, ?_, ?_, Or.inr ⟨rfl, rfl, rfl, rfl⟩⟩
      · simp only [hM]
      · simp only [hM, hC]; omega
    · exact absurd (by rw [hk]; decide) e2
  · rw [hk]
    intro hnone
    have hmod := standard_fit_iff h reqs 65472 (by decide)
    rcases leaf_alloc_cases (heap_after h reqs) (pool_after h reqs) 65472 with
      ⟨pre, c, post, e1, _, e3, _⟩ | ⟨_, e2, _⟩ | ⟨_, _, e3⟩
    · have hcm : c ∈ (pool_after h reqs).chunks := by rw [e1]; simp
      rw [hmod c hcm] at e3
      exact absurd e3 (hnone c hcm)
    · exact absurd e2 (by rw [hk]; decide)
    · refine ⟨_, _, _, _, e3, rfl, rfl, ?_, rfl, rfl, rfl, ?_, ?_⟩
      · simp only [hM, hH]
      · simp only [hM]
      · simp only [hM, hH]; omega

theorem jumbo_threshold_witness :
    (∀ c ∈ (pool_after { next := 0 } [100]).chunks,
        ¬ c.used + (CHUNK_SIZE - 2 * sizeof_RegionChunkHeader) < c.size) ∧
    leaf_alloc (heap_after { next := 0 } [100]) (some (pool_after { next := 0 } [100])) 65472
      = some ({ block := 2, off := 32 },
          { chunks := [{ addr := 1, size := 65536, used := 132, unused := 0xdeadbeef }],
            jumbo := [{ addr := 2, size := 65536, used := 65504, unused := 0xdeadbeef }] },
          { next := 3 }) ∧
    ∃ p pool1 h1 c,
        leaf_alloc (heap_after { next := 0 } [100]) (some (pool_after { next := 0 } [100]))
          (CHUNK_SIZE - 2 * sizeof_RegionChunkHeader) = some (p, pool1, h1) ∧
        pool1.jumbo = c :: (pool_after { next := 0 } [100]).jumbo ∧
        pool1.chunks = (pool_after { next := 0 } [100]).chunks ∧
        c.size = CHUNK_SIZE - 2 * sizeof_RegionChunkHeader + 2 * sizeof_RegionChunkHeader ∧
        c.addr = (heap_after { next := 0 } [100]).next ∧
        p.block = c.addr ∧ p.off = sizeof_RegionChunk ∧
        p.off + (CHUNK_SIZE - 2 * sizeof_RegionChunkHeader) = c.used ∧ c.used ≤ c.size :=
  ⟨by decide, by decide, (jumbo_threshold { next := 0 } [100]).2 (by decide)⟩

/-- C3, the claim as written fails. On the pool `leaf_newpool` returns, a request
of `CHUNK_SIZE - 2*sizeof(RegionChunkHeader)` = 65472 bytes is served by the
first standard chunk (32 + 65472 < 65536): no jumbo chunk is made. -/
theorem jumbo_request_in_standard_chunk :
    CHUNK_SIZE - 2 * sizeof_RegionChunkHeader = 65472 ∧
    leaf_alloc (heap_after { next := 0 } []) (some (pool_after { next := 0 } []))
        (CHUNK_SIZE - 2 * sizeof_RegionChunkHeader)
      = some ({ block := 1, off := 32 },
          { chunks := [{ addr := 1, size := 65536, used := 65504, unused := 0xdeadbeef }],
            jumbo := [] }, { next := 2 }) := by
  decide

/-- C1, the failing input. On the pool `leaf_newpool` returns, the request of
`2^64 - 33` bytes makes a jumbo chunk of `(2^64 - 33 + 64) mod 2^64 = 31` bytes
whose `used` is `2^64 - 1`: more bytes used than the chunk has. -/
theorem used_exceeds_size :
    (pool_after { next := 0 } [18446744073709551583]).jumbo
      = [{ addr := 2, size := 31, used := 18446744073709551615, unused := 0xdeadbeef }] ∧
    ¬ (∀ c ∈ (pool_after { next := 0 } [18446744073709551583]).jumbo, c.used ≤ c.size) := by
  decide

/-- C2, the failing input. On the pool `leaf_newpool` returns, the request of
`2^64 - 16` bytes is served by the first chunk at offset 32 and leaves
`used = (32 + 2^64 - 16) mod 2^64 = 16`; the request of 32 bytes that follows is
served by the same chunk at offset 16: its bytes `[16, 48)` lie in the header of
the chunk and share the bytes `[32, 48)` with the first request. -/
theorem requests_overlap :
    returned { next := 0 } [18446744073709551600, 32]
      = [{ block := 1, off := 32 }, { block := 1, off := 16 }] ∧
    overlap { block := 1, off := 32 } 18446744073709551600 { block := 1, off := 16 } 32 ∧
    in_header { block := 1, off := 16 } 32 := by
  decide

/-! ## The allocator on requests that do not wrap -/

theorem alloc_invariant_step (served : List (Ptr × Nat)) (h : Heap) (pool : Pool)
    (szbytes : Nat) (hb : szbytes + CHUNK_SIZE ≤ SIZE_MOD) (p : Ptr) (pool1 : Pool) (h1 : Heap)
    (hI : alloc_invariant served pool h)
    (hout : leaf_alloc h (some pool) szbytes = some (p, pool1, h1)) :
    alloc_invariant (served ++ [(p, szbytes)]) pool1 h1 := by
  have hC : CHUNK_SIZE = 65536 := rfl
  have hH : sizeof_RegionChunkHeader = 32 := rfl
  have hM : SIZE_MOD = 18446744073709551616 := rfl
  obtain ⟨i1, i2, i3, i4, i5, i6⟩ := hI
  rcases leaf_alloc_cases h pool szbytes with
    ⟨pre, c, post, e1, _, e3, e4⟩ | ⟨_, e2, e3⟩ | ⟨_, e2, e3⟩
  · -- a chunk of the standard chain serves the request
    rw [e4] at hout
    simp only [Option.some.injEq, Prod.mk.injEq] at hout
    obtain ⟨rfl, rfl, rfl⟩ := hout
    have hcm : c ∈ pool.chunks ++ pool.jumbo := by rw [e1]; simp
    have hc1 := i1 c hcm
    have hcs := i2 c (by rw [e1]; simp)
    have hmod : (c.used + szbytes) % SIZE_MOD = c.used + szbytes := by
      apply Nat.mod_eq_of_lt
      omega
    rw [hmod] at e3
    simp only [hmod]
    have hold : ∀ d, d ∈ pre ∨ d ∈ post ∨ d ∈ pool.jumbo → d ∈ pool.chunks ++ pool.jumbo := by
      intro d hd
      rw [e1]
      simp only [List.mem_append, List.mem_cons]
      tauto
    have hother : ∀ d, d ∈ pre ∨ d ∈ post ∨ d ∈ pool.jumbo → d.addr ≠ c.addr := by
      rw [e1] at i3
      simp only [List.append_assoc, List.cons_append, List.map_append, List.map_cons] at i3
      have hmid := List.nodup_middle.mp i3
      have hnot := (List.nodup_cons.mp hmid).1
      intro d hd heq
      apply hnot
      rw [← heq]
      simp only [List.mem_append, List.mem_map]
      rcases hd with hd | hd | hd
      · exact Or.inl ⟨d, hd, rfl⟩
      · exact Or.inr (Or.inl ⟨d, hd, rfl⟩)
      · exact Or.inr (Or.inr ⟨d, hd, rfl⟩)
    refine ⟨?_, ?_, ?_, ?_, ?_, ?_⟩
    · intro d hd
      simp only [List.mem_append, List.mem_cons] at hd
      rcases hd with (hd | rfl | hd) | hd
      · exact i1 d (hold d (Or.inl hd))
      · exact ⟨hc1.1, by simp only; omega, by simp only; omega⟩
      · exact i1 d (hold d (Or.inr (Or.inl hd)))
      · exact i1 d (hold d (Or.inr (Or.inr hd)))
    · intro d hd
      simp only [List.mem_append, List.mem_cons] at hd
      rcases hd with hd | rfl | hd
      · exact i2 d (by rw [e1]; simp [hd])
      · exact ⟨hcs.1, by simp only; omega⟩
      · exact i2 d (by rw [e1]; simp [hd])
    · rw [e1] at i3
      simpa using i3
    · intro a ha
      simp only [List.mem_append, List.mem_singleton] at ha
      rcases ha with ha | rfl
      · exact i4 a ha
      · exact ⟨hc1.1, hc1.2.1⟩
    · intro a ha d hd hda
      simp only [List.mem_append, List.mem_singleton] at ha
      simp only [List.mem_append, List.mem_cons] at hd
      rcases ha with ha | rfl
      · rcases hd with (hd | rfl | hd) | hd
        · exact i5 a ha d (hold d (Or.inl hd)) hda
        · have := i5 a ha c hcm hda
          simp only
          omega
        · exact i5 a ha d (hold d (Or.inr (Or.inl hd))) hda
        · exact i5 a ha d (hold d (Or.inr (Or.inr hd))) hda
      · rcases hd with (hd | rfl | hd) | hd
        · exact absurd hda (hother d (Or.inl hd))
        · exact le_refl _
        · exact absurd hda (hother d (Or.inr (Or.inl hd)))
        · exact absurd hda (hother d (Or.inr (Or.inr hd)))
    · rw [List.pairwise_append]
      refine ⟨i6, List.pairwise_singleton _ _, ?_⟩
      intro a ha b hb
      rw [List.mem_singleton] at hb
      subst hb
      rintro ⟨hblk, _, hlt, _, _⟩
      have := i5 a ha c hcm hblk.symm
      simp only at hlt
      omega
  · -- a new standard chunk
    rw [e3] at hout
    simp only [Option.some.injEq, Prod.mk.injEq] at hout
    obtain ⟨rfl, rfl, rfl⟩ := hout
    have hmod : (32 + szbytes) % SIZE_MOD = 32 + szbytes := by
      apply Nat.mod_eq_of_lt
      omega
    simp only [hmod]
    refine ⟨?_, ?_, ?_, ?_, ?_, ?_⟩
    · intro d hd
      simp only [List.cons_append, List.mem_cons] at hd
      rcases hd with rfl | hd
      · exact ⟨by simp only; omega, by simp only; omega, by simp only; omega⟩
      · have := i1 d hd
        exact ⟨by simp only; omega, this.2.1, this.2.2⟩
    · intro d hd
      simp only [List.mem_cons] at hd
      rcases hd with rfl | hd
      · exact ⟨rfl, by simp only; omega⟩
      · exact i2 d hd
    · simp only [List.cons_append, List.map_cons, List.nodup_cons]
      refine ⟨?_, i3⟩
      intro hmem
      obtain ⟨d, hd, hda⟩ := List.mem_map.mp hmem
      have := (i1 d hd).1
      omega
    · intro a ha
      simp only [List.mem_append, List.mem_singleton] at ha
      rcases ha with ha | rfl
      · have := i4 a ha
        exact ⟨by simp only; omega, this.2⟩
      · exact ⟨by simp only; omega, by simp only; omega⟩
    · intro a ha d hd hda
      simp only [List.mem_append, List.mem_singleton] at ha
      simp only [List.cons_append, List.mem_cons] at hd
      rcases ha with ha | rfl
      · rcases hd with rfl | hd
        · have := (i4 a ha).1
          simp only at hda
          omega
        · exact i5 a ha d hd hda
      · rcases hd with rfl | hd
        · exact le_refl _
        · have := (i1 d hd).1
          simp only at hda
          omega
    · rw [List.pairwise_append]
      refine ⟨i6, List.pairwise_singleton _ _, ?_⟩
      intro a ha b hb
      rw [List.mem_singleton] at hb
      subst hb
      rintro ⟨hblk, _, _, _, _⟩
      have := (i4 a ha).1
      simp only at hblk
      omega
  · -- a new jumbo chunk
    rw [e3] at hout
    simp only [Option.some.injEq, Prod.mk.injEq] at hout
    obtain ⟨rfl, rfl, rfl⟩ := hout
    have hmod : (32 + szbytes) % SIZE_MOD = 32 + szbytes := by
      apply Nat.mod_eq_of_lt
      omega
    have hmod2 : (szbytes + 2 * sizeof_RegionChunkHeader) % SIZE_MOD = szbytes + 64 := by
      apply Nat.mod_eq_of_lt
      omega
    simp only [hmod, hmod2]
    refine ⟨?_, ?_, ?_, ?_, ?_, ?_⟩
    · intro d hd
      simp only [List.mem_append, List.mem_cons] at hd
      rcases hd with hd | rfl | hd
      · have := i1 d (List.mem_append_left _ hd)
        exact ⟨by simp only; omega, this.2.1, this.2.2⟩
      · exact ⟨by simp only; omega, by simp only; omega, by simp only; omega⟩
      · have := i1 d (List.mem_append_right _ hd)
        exact ⟨by simp only; omega, this.2.1, this.2.2⟩
    · exact i2
    · simp only [List.map_append, List.map_cons]
      rw [List.nodup_middle, List.nodup_cons]
      rw [List.map_append] at i3
      refine ⟨?_, i3⟩
      intro hmem
      rw [← List.map_append] at hmem
      obtain ⟨d, hd, hda⟩ := List.mem_map.mp hmem
      have := (i1 d hd).1
      omega
    · intro a ha
      simp only [List.mem_append, List.mem_singleton] at ha
      rcases ha with ha | rfl
      · have := i4 a ha
        exact ⟨by simp only; omega, this.2⟩
      · exact ⟨by simp only; omega, by simp only; omega⟩
    · intro a ha d hd hda
      simp only [List.mem_append, List.mem_singleton] at ha
      simp only [List.mem_append, List.mem_cons] at hd
      rcases ha with ha | rfl
      · rcases hd with hd | rfl | hd
        · exact i5 a ha d (List.mem_append_left _ hd) hda
        · have := (i4 a ha).1
          simp only at hda
          omega
        · exact i5 a ha d (List.mem_append_right _ hd) hda
      · rcases hd with hd | rfl | hd
        · have := (i1 d (List.mem_append_left _ hd)).1
          simp only at hda
          omega
        · exact le_refl _
        · have := (i1 d (List.mem_append_right _ hd)).1
          simp only at hda
          omega
    · rw [List.pairwise_append]
      refine ⟨i6, List.pairwise_singleton _ _, ?_⟩
      intro a ha b hb
      rw [List.mem_singleton] at hb
      subst hb
      rintro ⟨hblk, _, _, _, _⟩
      have := (i4 a ha).1
      simp only at hblk
      omega

theorem alloc_invariant_run :
    ∀ (reqs : List Nat) (served : List (Ptr × Nat)) (h : Heap) (pool : Pool),
      (∀ r ∈ reqs, r + CHUNK_SIZE ≤ SIZE_MOD) → alloc_invariant served pool h →
      alloc_invariant (served ++ (leaf_allocs h pool reqs).1.zip reqs)
        (leaf_allocs h pool reqs).2.1 (leaf_allocs h pool reqs).2.2 := by
  intro reqs
  induction reqs with
  | nil => intro served h pool _ hI; simpa [leaf_allocs] using hI
  | cons sz rest ih =>
    intro served h pool hb hI
    have hsz := hb sz (List.mem_cons_self _ _)
    have hrest : ∀ r ∈ rest, r + CHUNK_SIZE ≤ SIZE_MOD :=
      fun r hr => hb r (List.mem_cons_of_mem _ hr)
    unfold leaf_allocs
    rcases hout : leaf_alloc h (some pool) sz with _ | ⟨p, pool1, h1⟩
    · simpa using hI
    · have hstep := alloc_invariant_step served h pool sz hsz p pool1 h1 hI hout
      have := ih (served ++ [(p, sz)]) h1 pool1 hrest hstep
      simpa using this

theorem alloc_invariant_newpool (h : Heap) :
    alloc_invariant [] (leaf_newpool h).1 (leaf_newpool h).2 := by
  have hp : leaf_newpool h
      = ({ chunks := [{ addr := h.next + 1, size := CHUNK_SIZE, used := 32,
                        unused := 0xdeadbeef }], jumbo := [] },
         { next := h.next + 1 + 1 }) := rfl
  rw [hp]
  refine ⟨?_, ?_, ?_, ?_, ?_, List.Pairwise.nil⟩
  · intro c hc
    simp only [List.append_nil, List.mem_singleton] at hc
    subst hc
    exact ⟨by simp only; omega, le_refl _, (by decide : 32 ≤ CHUNK_SIZE)⟩
  · intro c hc
    simp only [List.mem_singleton] at hc
    subst hc
    exact ⟨rfl, (by decide : 32 < CHUNK_SIZE)⟩
  · simp
  · intro a ha; simp at ha
  · intro a ha; simp at ha

/-- The allocator on requests that do not wrap (`szbytes + CHUNK_SIZE` at most
`2^64`): after every run of `leaf_alloc` calls on the pool `leaf_newpool`
returns, every chunk of both chains has `used <= size`, no two of the ranges
returned share a byte, and none shares a byte with a chunk header. -/
theorem bounded_requests_safe (h : Heap) (reqs : List Nat)
    (hb : ∀ r ∈ reqs, r + CHUNK_SIZE ≤ SIZE_MOD) :
    (∀ c ∈ (pool_after h reqs).chunks ++ (pool_after h reqs).jumbo, c.used ≤ c.size) ∧
    ((returned h reqs).zip reqs).Pairwise (fun a b => ¬ overlap a.1 a.2 b.1 b.2) ∧
    (∀ a ∈ (returned h reqs).zip reqs, ¬ in_header a.1 a.2) := by
  have hI := alloc_invariant_run reqs [] (leaf_newpool h).2 (leaf_newpool h).1 hb
    (alloc_invariant_newpool h)
  simp only [List.nil_append] at hI
  obtain ⟨i1, _, _, i4, _, i6⟩ := hI
  refine ⟨fun c hc => (i1 c hc).2.2, i6, ?_⟩
  intro a ha hin
  have := (i4 a ha).2
  unfold in_header at hin
  omega

theorem bounded_requests_safe_witness :
    returned { next := 0 } [100, 65450, 400, 70000]
      = [{ block := 1, off := 32 }, { block := 2, off := 32 }, { block := 1, off := 132 },
         { block := 3, off := 32 }] ∧
    ((returned { next := 0 } [100, 65450, 400, 70000]).zip [100, 65450, 400, 70000]).Pairwise
      (fun a b => ¬ overlap a.1 a.2 b.1 b.2) :=
  ⟨by decide,
   (bounded_requests_safe { next := 0 } [100, 65450, 400, 70000] (by decide)).2.1⟩

end Leaf
